import Mathlib

/-!
Verification of the markup-transformation and template-generation core of the
`note-ignite` CLI (an annotated copy of ignite-cli).

The development shallowly embeds the TypeScript sources:
  * `src/tools/markup.ts`   (marker-comment engine, bulk file transformer,
    empty-directory reaper) — `updateFile`, `updateFiles`, `deleteFiles`,
    `removeEmptyDirs`, `markupRegex`, and the four line/block primitives;
  * `src/tools/generators.ts` (front-matter parser, patch applier,
    generation orchestrator) — `frontMatter`, `handlePatches`,
    `generateFromTemplate`.

Strings are modelled as `List Char` (`Str`); JavaScript string methods
(`includes`, `replace` with a string pattern, `split`, `trim`) are embedded
directly.  The `markupRegex` detector is embedded as a backtracking matcher
over a fixed regex AST, mirroring JavaScript regex semantics (leftmost match,
left-biased alternation, greedy star) including the statefulness of the
`lastIndex` property of a `g`-flagged regex.  The filesystem is modelled as a
partial map from paths to contents.
-/

namespace NoteIgnite

/-- File contents and paths, modelled as lists of characters. -/
abbrev Str := List Char

/-- Convenience conversion from Lean string literals. -/
def S (s : String) : Str := s.data

/-- JavaScript `String.prototype.includes(needle)`: `needle` occurs as a
contiguous substring of `hay` (the empty needle always occurs). -/
def sIncludes (needle : Str) : Str → Bool
  | [] => needle.isEmpty
  | c :: t => needle.isPrefixOf (c :: t) || sIncludes needle t

/-- JavaScript `String.prototype.replace(pat, rep)` with a string pattern:
replaces the first occurrence of `pat` (if any) by `rep`.  With `pat = []`
the replacement is inserted at the front, as in JavaScript. -/
def replaceFirst (pat rep : Str) : Str → Str
  | [] => if pat.isEmpty then rep else []
  | c :: t =>
    if pat.isPrefixOf (c :: t) then rep ++ (c :: t).drop pat.length
    else c :: replaceFirst pat rep t

/-- JavaScript `String.prototype.split(sep)` for a non-empty string
separator: leftmost-first splitting on occurrences of `sep`.  Structural
recursion on a fuel that callers instantiate with `s.length`; every step
strictly shrinks the string, so the fuel never runs out when
`s.length ≤ fuel`. -/
def splitOnLGo (sep : Str) : Nat → Str → List Str
  | _, [] => [[]]
  | 0, s => [s]
  | fuel + 1, c :: t =>
    if sep ≠ [] ∧ sep.isPrefixOf (c :: t) then
      [] :: splitOnLGo sep fuel ((c :: t).drop sep.length)
    else
      match splitOnLGo sep fuel t with
      | [] => [[c]]
      | p :: ps => (c :: p) :: ps

/-- JavaScript `split` on a string separator. -/
def splitOnL (sep : Str) (s : Str) : List Str := splitOnLGo sep s.length s

/-- The result of `splitOnLGo` does not depend on the fuel, as long as the
fuel covers the string length. -/
theorem splitOnLGo_fuel (sep : Str) :
    ∀ (fuel fuel' : Nat) (s : Str), s.length ≤ fuel → s.length ≤ fuel' →
      splitOnLGo sep fuel s = splitOnLGo sep fuel' s := by
  intro fuel
  induction fuel with
  | zero =>
    intro fuel' s hf _
    have : s = [] := List.eq_nil_of_length_eq_zero (by omega)
    subst this
    cases fuel' <;> rfl
  | succ n ih =>
    intro fuel' s hf hf'
    cases s with
    | nil => cases fuel' <;> rfl
    | cons c t =>
      cases fuel' with
      | zero => simp at hf'
      | succ m =>
        simp only [splitOnLGo]
        by_cases hp : sep ≠ [] ∧ sep.isPrefixOf (c :: t)
        · rw [if_pos hp, if_pos hp]
          have hlen : 1 ≤ sep.length := by
            cases hs : sep with
            | nil => exact absurd hs hp.1
            | cons a l => simp
          have hdl : ((c :: t).drop sep.length).length ≤ n := by
            simp only [List.length_drop, List.length_cons]
            simp only [List.length_cons] at hf
            omega
          have hdl' : ((c :: t).drop sep.length).length ≤ m := by
            simp only [List.length_drop, List.length_cons]
            simp only [List.length_cons] at hf'
            omega
          rw [ih m _ hdl hdl']
        · rw [if_neg hp, if_neg hp]
          have ht : t.length ≤ n := by simp only [List.length_cons] at hf; omega
          have ht' : t.length ≤ m := by simp only [List.length_cons] at hf'; omega
          rw [ih m t ht ht']

/-- Step equation of `splitOnL` when the separator is found at the head. -/
theorem splitOnL_cons_pos {sep : Str} {c : Char} {t : Str}
    (hp : sep ≠ [] ∧ sep.isPrefixOf (c :: t)) :
    splitOnL sep (c :: t) = [] :: splitOnL sep ((c :: t).drop sep.length) := by
  have hlen : 1 ≤ sep.length := by
    cases hs : sep with
    | nil => exact absurd hs hp.1
    | cons a l => simp
  show splitOnLGo sep (t.length + 1) (c :: t) = _
  simp only [splitOnLGo, if_pos hp]
  congr 1
  exact splitOnLGo_fuel sep t.length _ _
    (by simp only [List.length_drop, List.length_cons]; omega) (le_refl _)

/-- Step equation of `splitOnL` when the separator is not at the head. -/
theorem splitOnL_cons_neg {sep : Str} {c : Char} {t : Str}
    (hp : ¬(sep ≠ [] ∧ sep.isPrefixOf (c :: t))) :
    splitOnL sep (c :: t) =
      match splitOnL sep t with
      | [] => [[c]]
      | p :: ps => (c :: p) :: ps := by
  show splitOnLGo sep (t.length + 1) (c :: t) = _
  simp only [splitOnLGo, if_neg hp]
  rfl

/-- Split a file body into lines, as `contents.split("\n")` does. -/
def splitLines (s : Str) : List Str := splitOnL ['\n'] s

/-- Re-join lines, as `lines.join("\n")` does. -/
def joinLines (ls : List Str) : Str := List.intercalate ['\n'] ls

/-- Whitespace characters stripped by JavaScript `String.prototype.trim`
(the subset relevant to source files). -/
def isJsWS (c : Char) : Bool :=
  c = ' ' || c = '\t' || c = '\n' || c = '\r'

/-- JavaScript `String.prototype.trim`. -/
def trimStr (s : Str) : Str :=
  ((s.dropWhile isJsWS).reverse.dropWhile isJsWS).reverse

/-! ## Marker-comment vocabulary (`src/tools/markup.ts`) -/

/-- The `MarkupComments` enum: the six marker kinds. -/
inductive MarkupComments where
  | RemoveCurrentLine
  | RemoveNextLine
  | RemoveBlockStart
  | RemoveBlockEnd
  | RemoveFile
  | ReplaceNextLine
  deriving DecidableEq, Repr

/-- The string value of each enum member. -/
def MarkupComments.value : MarkupComments → Str
  | .RemoveCurrentLine => S "remove-current-line"
  | .RemoveNextLine => S "remove-next-line"
  | .RemoveBlockStart => S "remove-block-start"
  | .RemoveBlockEnd => S "remove-block-end"
  | .RemoveFile => S "remove-file"
  | .ReplaceNextLine => S "replace-next-line"

/-- `markupComment(prefix, commentType)`: the marker string
`"<prefix> <kind>"`. -/
def markupComment (pfx : Str) (commentType : MarkupComments) : Str :=
  pfx ++ [' '] ++ commentType.value

/-! ## Line/block transform primitives (`src/tools/markup.ts`) -/

/-- `removeCurrentLine(contents, comment)`: drop every line containing the
marker substring. -/
def removeCurrentLine (contents comment : Str) : Str :=
  joinLines ((splitLines contents).filter (fun line => !sIncludes comment line))

/-- The line-level filter of `removeNextLine`: JavaScript
`lines.filter((line, index) => ...)` accesses `lines[index - 1]`, so we
recurse carrying the previous (original) line.  A line is kept iff it does
not itself contain the marker and (beyond index 0) the previous line does
not contain the marker either. -/
def removeNextLineCore (comment : Str) : Option Str → List Str → List Str
  | _, [] => []
  | none, l :: t =>
    (if !sIncludes comment l then [l] else []) ++ removeNextLineCore comment (some l) t
  | some p, l :: t =>
    (if !sIncludes comment l && !sIncludes comment p then [l] else []) ++
      removeNextLineCore comment (some l) t

/-- `removeNextLine(contents, comment)`: drop the line following a marker
line, and the marker line itself. -/
def removeNextLine (contents comment : Str) : Str :=
  joinLines (removeNextLineCore comment none (splitLines contents))

/-- The surgery performed on a `replace-next-line` marker line: remove the
first `"//"` occurrence, remove the marker string, and trim.  (The `"#"`
comment token is *not* removed — only `"//"` is.) -/
def replaceMarkerSurgery (comment line : Str) : Str :=
  trimStr (replaceFirst comment [] (replaceFirst (S "//") [] line))

/-- The map step of `replaceNextLine`: each line whose predecessor (in the
original array) contains the marker is replaced by the surgery of that
predecessor. -/
def replaceNextLineMap (comment : Str) : Option Str → List Str → List Str
  | _, [] => []
  | prev, l :: t =>
    (match prev with
     | some p => if sIncludes comment p then replaceMarkerSurgery comment p else l
     | none => l) :: replaceNextLineMap comment (some l) t

/-- `replaceNextLine(contents, comment)`: map step followed by the filter
`(line) => !line.includes(comment)` applied to the mapped array. -/
def replaceNextLine (contents comment : Str) : Str :=
  joinLines
    ((replaceNextLineMap comment none (splitLines contents)).filter
      (fun line => !sIncludes comment line))

/-- `lines.findIndex((line) => line.includes(c))`, as an optional index. -/
def findIndexIncl (lines : List Str) (c : Str) : Option Nat :=
  lines.findIdx? (fun line => sIncludes c line)

/-- `lines.splice(start, len)` (removal only): delete `len` elements
starting at index `start`. -/
def spliceRemove (lines : List Str) (start len : Nat) : List Str :=
  lines.take start ++ lines.drop (start + len)

/-- One-loop embedding of the recursive `removeBlocks`.  JavaScript computes
`blockLength = blockEndIndex - blockStartIndex + 1`; when the first end
marker precedes the first start marker this is negative, `splice` removes
nothing, and the function recurses on unchanged input — i.e. it diverges.
We model divergence as `none`.  When `end ≥ start` the splice removes at
least one line, so recursion terminates; the fuel `lines.length + 1` is
enough for every terminating run. -/
def removeBlocksGo (start end_ : Str) : Nat → List Str → Option (List Str)
  | 0, _ => none
  | fuel + 1, lines =>
    match findIndexIncl lines start, findIndexIncl lines end_ with
    | some si, some ei =>
      if ei < si then none
      else
        let lines' := spliceRemove lines si (ei - si + 1)
        if (findIndexIncl lines' start).isSome && (findIndexIncl lines' end_).isSome then
          removeBlocksGo start end_ fuel lines'
        else some lines'
    | _, _ => some lines

/-- `removeBlocks(contents, {start, end})`: repeatedly delete the inclusive
range from the first line containing `start` to the first line containing
`end`.  `none` models the divergence described at `removeBlocksGo`. -/
def removeBlocks (contents : Str) (start end_ : Str) : Option Str :=
  (removeBlocksGo start end_ ((splitLines contents).length + 1)
      (splitLines contents)).map joinLines

/-- `updateFile(contents, markupPrefix)`: block removal, then current-line
removal, then next-line removal, then next-line replacement, in this fixed
order.  `none` models divergence of the block-removal pass. -/
def updateFile (contents pfx : Str) : Option Str :=
  (removeBlocks contents
      (markupComment pfx .RemoveBlockStart) (markupComment pfx .RemoveBlockEnd)).map
    (fun r =>
      replaceNextLine
        (removeNextLine
          (removeCurrentLine r (markupComment pfx .RemoveCurrentLine))
          (markupComment pfx .RemoveNextLine))
        (markupComment pfx .ReplaceNextLine))

/-! ## The `markupRegex` detector

`markupRegex(prefix)` builds `new RegExp(pattern, "gm")` from the template
literal `` `(\/\/|#)\s*${prefix}.*|{?\/.*${prefix}.*\/}?` ``.  JavaScript
template literals process escapes before the regex engine ever sees the
text: `\/` is the character `/` and `\s` is the character `s` (an
unrecognised escape).  The pattern source is therefore

    (//|#)s*<prefix>.*|{?/.*<prefix>.*/}?

i.e. literal `s*` rather than a whitespace class.  We embed this fixed-shape
pattern as a small regex AST with JavaScript matching semantics: left-biased
alternation, greedy star, `.` matching anything but `'\n'`, leftmost match.
-/

/-- Regex AST covering the constructs of the markup pattern. -/
inductive Reg where
  | ch (c : Char)
  | dot
  | str (s : Str)
  | starCh (c : Char)
  | starDot
  | optCh (c : Char)
  | seq (a b : Reg)
  | alt (a b : Reg)

/-- Remainders of greedily matching `p*` at the front of `l`, in JavaScript
backtracking order (longest consumption first). -/
def starRems (p : Char → Bool) : Str → List Str
  | [] => [[]]
  | x :: xs => if p x then starRems p xs ++ [x :: xs] else [x :: xs]

/-- All suffixes left after matching `r` at the front of `l`, in JavaScript
backtracking preference order (head = the alternative the engine commits to
first). -/
def Reg.rems : Reg → Str → List Str
  | .ch c, l =>
    match l with
    | [] => []
    | x :: xs => if x = c then [xs] else []
  | .dot, l =>
    match l with
    | [] => []
    | x :: xs => if x ≠ '\n' then [xs] else []
  | .str s, l => if s.isPrefixOf l then [l.drop s.length] else []
  | .starCh c, l => starRems (fun x => x = c) l
  | .starDot, l => starRems (fun x => x ≠ '\n') l
  | .optCh c, l =>
    (match l with
     | x :: xs => if x = c then [xs] else []
     | [] => []) ++ [l]
  | .seq a b, l => (a.rems l).flatMap b.rems
  | .alt a b, l => a.rems l ++ b.rems l

/-- Scanning loop for the leftmost match (fuel-indexed; the wrapper
supplies `total.length + 1 - i`, which suffices). -/
def execFromGo (r : Reg) (total : Str) : Nat → Nat → Option (Nat × Nat)
  | 0, _ => none
  | fuel + 1, i =>
    if total.length < i then none
    else
      match (r.rems (total.drop i)).head? with
      | some rem => some (i, total.length - rem.length)
      | none =>
        if i = total.length then none
        else execFromGo r total fuel (i + 1)

/-- Leftmost match of `r` in `total` starting no earlier than index `i`:
returns `(matchStart, matchEnd)` of the match the JavaScript engine commits
to, or `none`. -/
def execFrom (r : Reg) (total : Str) (i : Nat) : Option (Nat × Nat) :=
  execFromGo r total (total.length + 1 - i) i

/-- The embedded pattern of `markupRegex(prefix)` (after template-literal
escape processing, see above).  The first alternative is
`(//|#)s*<prefix>.*`, the second `{?/.*<prefix>.*/}?`. -/
def markupPattern (pfx : Str) : Reg :=
  .alt
    (.seq (.alt (.str (S "//")) (.str (S "#")))
      (.seq (.starCh 's') (.seq (.str pfx) .starDot)))
    (.seq (.optCh '{')
      (.seq (.ch '/')
        (.seq .starDot
          (.seq (.str pfx) (.seq .starDot (.seq (.ch '/') (.optCh '}')))))))

/-- `regex.test(s)` for a regex built with the `g` flag: matching starts at
`lastIndex`; on success `lastIndex` is set to the match end, on failure it
is reset to `0`.  Returns `(result, new lastIndex)`. -/
def testG (r : Reg) (s : Str) (lastIndex : Nat) : Bool × Nat :=
  if s.length < lastIndex then (false, 0)
  else
    match execFrom r s lastIndex with
    | some (_, e) => (true, e)
    | none => (false, 0)

/-- `s.replace(regex, "")` for a `g`-flagged regex: deletes every
(leftmost, non-overlapping) match.  Matches of `markupPattern` always
consume at least one character, so fuel `s.length + 1` covers every run. -/
def regexDeleteAllGo (r : Reg) : Nat → Str → Str
  | 0, s => s
  | fuel + 1, s =>
    match execFrom r s 0 with
    | none => s
    | some (b, e) => s.take b ++ regexDeleteAllGo r fuel (s.drop e)

/-- `contents.replace(searchRegex, "")` (used by `removeMarkupOnly`). -/
def regexDeleteAll (r : Reg) (s : Str) : Str :=
  regexDeleteAllGo r (s.length + 1) s

/-! ## Bulk file transformer (`updateFiles`, `deleteFiles`)

The filesystem is a partial map from paths to contents; `none` models a
missing or unreadable file (`patching.read` yields `undefined` there).
-/

/-- Filesystem model. -/
def Fs := Str → Option Str

/-- Point update of the filesystem (a file write). -/
def Fs.write (fs : Fs) (p : Str) (c : Str) : Fs :=
  fun q => if q = p then some c else fs q

/-- Removal of a file. -/
def Fs.remove (fs : Fs) (p : Str) : Fs :=
  fun q => if q = p then none else fs q

/-- JavaScript truthiness of `patching.read`'s result: `undefined` and the
empty string are both falsy (`if (!contents)`). -/
def readFalsy : Option Str → Bool
  | none => true
  | some c => c.isEmpty

/-- The loop of `updateFiles`.  The single `searchRegex` is created once,
before the loop, with the `g` flag, so its `lastIndex` is threaded through
the per-file `test` calls (and reset by the `replace` call in
`removeMarkupOnly` mode).  State: remaining paths, filesystem, `lastIndex`,
and the two accumulators.  `none` propagates divergence of `updateFile`. -/
def updateFilesGo (pfx : Str) (dryRun removeMarkupOnly : Bool) :
    List Str → Fs → Nat → List Str → List Str →
    Option (List Str × List Str × Fs)
  | [], fs, _, upd, skp => some (upd, skp, fs)
  | path :: rest, fs, lastIndex, upd, skp =>
    let contents := fs path
    if readFalsy contents then
      updateFilesGo pfx dryRun removeMarkupOnly rest fs lastIndex upd (skp ++ [path])
    else
      let c := contents.getD []
      let t := testG (markupPattern pfx) c lastIndex
      if !t.1 then
        updateFilesGo pfx dryRun removeMarkupOnly rest fs t.2 upd (skp ++ [path])
      else
        if dryRun then
          updateFilesGo pfx dryRun removeMarkupOnly rest fs t.2 (upd ++ [path]) skp
        else
          if removeMarkupOnly then
            let c' := regexDeleteAll (markupPattern pfx) c
            -- String.replace with a g-flagged regex resets lastIndex to 0
            updateFilesGo pfx dryRun removeMarkupOnly rest (fs.write path c') 0
              (upd ++ [path]) skp
          else
            match updateFile c pfx with
            | none => none
            | some c' =>
              updateFilesGo pfx dryRun removeMarkupOnly rest (fs.write path c') t.2
                (upd ++ [path]) skp

/-- `updateFiles({filePaths, markupPrefix, dryRun = true,
removeMarkupOnly = false})`: classify and (outside dry run) rewrite each
file; returns `(updatedFiles, skippedFiles, resulting filesystem)`.
`dryRun`/`removeMarkupOnly` are `Option Bool` to model the omitted-argument
defaults. -/
def updateFiles (filePaths : List Str) (pfx : Str)
    (dryRun removeMarkupOnly : Option Bool) (fs : Fs) :
    Option (List Str × List Str × Fs) :=
  updateFilesGo pfx (dryRun.getD true) (removeMarkupOnly.getD false)
    filePaths fs 0 [] []

/-- The loop of `deleteFiles`. -/
def deleteFilesGo (comment : Str) (dryRun : Bool) :
    List Str → Fs → List Str → List Str × Fs
  | [], fs, removed => (removed, fs)
  | path :: rest, fs, removed =>
    match fs path with
    | some contents =>
      if sIncludes comment contents then
        deleteFilesGo comment dryRun rest (if dryRun then fs else fs.remove path)
          (removed ++ [path])
      else deleteFilesGo comment dryRun rest fs removed
    | none => deleteFilesGo comment dryRun rest fs removed

/-- `deleteFiles({filePaths, comment, dryRun = true})`: delete (outside dry
run) every listed file whose contents contain the marker; returns the
removed paths and the resulting filesystem. -/
def deleteFiles (filePaths : List Str) (comment : Str) (dryRun : Option Bool)
    (fs : Fs) : List Str × Fs :=
  deleteFilesGo comment (dryRun.getD true) filePaths fs []

/-! ## Empty-directory reaper (`removeEmptyDirs`)

The directory tree under `targetDir` is a finite set of directory paths and
file paths (paths as segment lists).  `filesystem.find` with
`directories: true` enumerates the directories (in list order here);
`filesystem.list(path)?.length` is zero iff the directory has no immediate
child among the remaining directories and files.  The glob
inclusion/exclusion (`matching`) is abstracted as a predicate on paths. -/

/-- A directory tree: the directories and files below the target. -/
structure FsTree where
  dirs : List (List String)
  files : List (List String)
  deriving DecidableEq, Repr

/-- `e` is an immediate child of `d`. -/
def isChildOf (d e : List String) : Bool :=
  e.length = d.length + 1 && d.isPrefixOf e

/-- `!filesystem.list(d)?.length`: `d` has no entry. -/
def isEmptyDir (t : FsTree) (d : List String) : Bool :=
  !(t.dirs.any (isChildOf d) || t.files.any (isChildOf d))

/-- `getEmptyDirPaths()`: directories matching the glob predicate that are
currently empty. -/
def getEmptyDirPaths (included : List String → Bool) (t : FsTree) : List (List String) :=
  t.dirs.filter (fun d => included d && isEmptyDir t d)

/-- Remove a batch of directories from the tree. -/
def FsTree.removeDirs (t : FsTree) (ds : List (List String)) : FsTree :=
  { t with dirs := t.dirs.filter (fun d => !ds.contains d) }

/-- The `while (emptyDirPaths.length > 0)` loop of `removeEmptyDirs`: each
iteration records the scanned empty directories and — unless `dryRun` —
removes them, then rescans.  The code has no iteration cap; fuel only
serves the embedding, with `none` meaning the loop ran longer than the
supplied fuel (in particular, forever). -/
def removeEmptyDirsGo (included : List String → Bool) (dryRun : Bool) :
    Nat → FsTree → List (List String) → Option (List (List String) × FsTree)
  | 0, _, _ => none
  | fuel + 1, t, removed =>
    let e := getEmptyDirPaths included t
    if e.isEmpty then some (removed, t)
    else
      removeEmptyDirsGo included dryRun fuel
        (if dryRun then t else t.removeDirs e) (removed ++ e)

/-- `removeEmptyDirs({targetDir, dryRun, matching})`, with fuel
`t.dirs.length + 1` — enough for every terminating run of the source, since
a non-dry-run iteration deletes at least one directory. -/
def removeEmptyDirs (included : List String → Bool) (dryRun : Bool) (t : FsTree) :
    Option (List (List String) × FsTree) :=
  removeEmptyDirsGo included dryRun (t.dirs.length + 1) t []

/-! ## gluegun `strings` case functions

`strings.pascalCase/camelCase/kebabCase/snakeCase` delegate to lodash.
Lodash tokenises a string into words (via `unicodeWords`): for the ASCII
inputs relevant here, maximal runs of digits, of lowercase letters, of an
uppercase letter followed by lowercase letters, and of uppercase letters
(an uppercase run followed by a lowercase letter splits before its last
letter, as in `FOOBar → FOO, Bar`); every other character is a separator
and is dropped.  `pascalCase` is gluegun's `upperFirst(camelCase(·))`. -/

def isAsciiLower (c : Char) : Bool := 'a' ≤ c && c ≤ 'z'

def isAsciiUpper (c : Char) : Bool := 'A' ≤ c && c ≤ 'Z'

def isAsciiDigit (c : Char) : Bool := '0' ≤ c && c ≤ '9'

/-- Word tokenisation (fuel-indexed; callers pass `s.length`, which every
step strictly decreases below, so the fuel never runs out). -/
def lodashWordsGo : Nat → Str → List Str
  | 0, _ => []
  | fuel + 1, s =>
    match s with
    | [] => []
    | c :: cs =>
      if isAsciiDigit c then
        (c :: cs.takeWhile isAsciiDigit) :: lodashWordsGo fuel (cs.dropWhile isAsciiDigit)
      else if isAsciiLower c then
        (c :: cs.takeWhile isAsciiLower) :: lodashWordsGo fuel (cs.dropWhile isAsciiLower)
      else if isAsciiUpper c then
        match cs.dropWhile isAsciiUpper with
        | d :: ds =>
          if isAsciiLower d then
            if (cs.takeWhile isAsciiUpper).isEmpty then
              (c :: d :: ds.takeWhile isAsciiLower) ::
                lodashWordsGo fuel (ds.dropWhile isAsciiLower)
            else
              (c :: (cs.takeWhile isAsciiUpper).dropLast) ::
                ((cs.takeWhile isAsciiUpper).getLastD c :: d :: ds.takeWhile isAsciiLower) ::
                lodashWordsGo fuel (ds.dropWhile isAsciiLower)
          else (c :: cs.takeWhile isAsciiUpper) :: lodashWordsGo fuel (d :: ds)
        | [] => [c :: cs.takeWhile isAsciiUpper]
      else lodashWordsGo fuel cs

/-- lodash `words` (ASCII fragment). -/
def lodashWords (s : Str) : List Str := lodashWordsGo s.length s

/-- lodash `upperFirst`. -/
def upperFirst : Str → Str
  | [] => []
  | c :: t => c.toUpper :: t

/-- lodash `kebabCase`: lowercased words joined with `-`. -/
def kebabCase (s : Str) : Str :=
  List.intercalate ['-'] ((lodashWords s).map (fun w => w.map Char.toLower))

/-- lodash `snakeCase`: lowercased words joined with `_`. -/
def snakeCase (s : Str) : Str :=
  List.intercalate ['_'] ((lodashWords s).map (fun w => w.map Char.toLower))

/-- lodash `camelCase`: first word lowercased, subsequent words lowercased
then capitalised, concatenated. -/
def camelCase (s : Str) : Str :=
  match (lodashWords s).map (fun w => w.map Char.toLower) with
  | [] => []
  | w :: ws => w ++ ws.flatMap upperFirst

/-- gluegun `pascalCase = upperFirst(camelCase(value))`. -/
def pascalCase (s : Str) : Str := upperFirst (camelCase s)

/-- gluegun `strings.isBlank`: empty or whitespace-only. -/
def isBlank (s : Str) : Bool := (trimStr s).isEmpty

/-! ## Node `path` helpers (POSIX)

`path.basename`, `path.dirname` and `path.join` as used by
`generateFromTemplate`.  Trailing-slash preservation of `join` is not
modelled (no caller produces trailing slashes). -/

/-- Node `path.basename` (no extension argument). -/
def pathBasename (s : Str) : Str :=
  ((s.reverse.dropWhile (· = '/')).takeWhile (· ≠ '/')).reverse

/-- Node `path.dirname`. -/
def pathDirname (s : Str) : Str :=
  match (s.reverse.dropWhile (· = '/')).dropWhile (· ≠ '/') with
  | [] => if s.head? = some '/' then S "/" else S "."
  | _ :: rest => if rest.isEmpty then S "/" else rest.reverse

/-- Segment normalisation of Node `path.normalize`: drop empty and `.`
segments, let `..` pop a preceding real segment. -/
def normalizeSegs : List Str → List Str → List Str
  | stack, [] => stack.reverse
  | stack, seg :: rest =>
    if seg = [] || seg = S "." then normalizeSegs stack rest
    else if seg = S ".." then
      match stack with
      | [] => normalizeSegs [seg] rest
      | top :: more =>
        if top = S ".." then normalizeSegs (seg :: top :: more) rest
        else normalizeSegs more rest
    else normalizeSegs (seg :: stack) rest

/-- Node `path.join(...parts)`: drop empty parts, join with `/`,
normalize; empty results become `"."`. -/
def pathJoin (parts : List Str) : Str :=
  let joined := List.intercalate (S "/") (parts.filter (fun p => !p.isEmpty))
  let body := List.intercalate (S "/") (normalizeSegs [] (splitOnL (S "/") joined))
  if joined.head? = some '/' then '/' :: body
  else if body.isEmpty then S "." else body

/-! ## Front matter and patch directives (`src/tools/generators.ts`)

`YAML.parse` is external; it is abstracted as a parameter
`yamlParse : Str → Except Unit FMData` (an exception propagates, a success
yields the recognised keys `path`, `patch`, `patches`). -/

/-- A patch directive from front matter (`Patch` in the source).  `path`
is the target file; the empty string models a falsy/absent path.  The four
optional text fields keep JavaScript truthiness: `none` and `some ""` are
both falsy. -/
structure Patch where
  path : Str := []
  append : Option Str := none
  prepend : Option Str := none
  replace : Option Str := none
  insert : Option Str := none
  skip : Bool := false
  deriving DecidableEq, Repr

/-- Parsed front-matter data: the keys read by `generateFromTemplate`. -/
structure FMData where
  path : Option Str := none
  patches : Option (List Patch) := none
  patch : Option Patch := none

/-- `frontMatter(contents)`: split on `"---" + NEW_LINE`; with 1 or 3 parts
return `{data, content}` (parsing part 1 if it is truthy — a thrown
`YAML.parse` error propagates); any other part count returns `{}`, modelled
as `none`. -/
def frontMatter (yamlParse : Str → Except Unit FMData) (contents : Str) :
    Except Unit (Option (FMData × Str)) :=
  let parts := splitOnL (S "---\n") contents
  if parts.length = 1 ∨ parts.length = 3 then
    let content := ((parts.get? 2).getD ((parts.get? 0).getD []))
    match parts.get? 1 with
    | some p1 =>
      if p1.isEmpty then .ok (some ({}, content))
      else
        match yamlParse p1 with
        | .error e => .error e
        | .ok d => .ok (some (d, content))
    | none => .ok (some ({}, content))
  else .ok none

/-- Truthiness of an optional string field. -/
def truthyOpt : Option Str → Bool
  | none => false
  | some s => !s.isEmpty

/-- The patching primitives invoked by `handlePatches`, as events.
`patchOp` is gluegun's generic `patching.patch`, called with the residual
options object `{append?, prepend?, replace?, insert?}`. -/
inductive PatchOp where
  | appendOp (path text : Str)
  | prependOp (path text : Str)
  | replaceOp (path search : Str) (ins : Option Str)
  | patchOp (path : Str) (append prepend replace ins : Option Str)
  deriving DecidableEq, Repr

/-- The patching calls one directive of `handlePatches` produces: nothing
when the path is falsy or `skip` is set; otherwise `patching.append` /
`patching.prepend` / `patching.replace` guarded by the truthiness of their
field, followed unconditionally by `patching.patch` with the residual
options. -/
def patchDirectiveOps (p : Patch) : List PatchOp :=
  if !p.path.isEmpty && !p.skip then
    (if truthyOpt p.append then [.appendOp p.path (p.append.getD [])] else []) ++
      (if truthyOpt p.prepend then [.prependOp p.path (p.prepend.getD [])] else []) ++
      (if truthyOpt p.replace then [.replaceOp p.path (p.replace.getD []) p.insert] else []) ++
      [.patchOp p.path p.append p.prepend p.replace p.insert]
  else []

/-- `handlePatches(data)`: the directive list is `data.patches ?? []` with
`data.patch` pushed at the end when truthy; directives are processed in
order. -/
def handlePatches (data : FMData) : List PatchOp :=
  ((data.patches.getD []) ++
      (match data.patch with | some p => [p] | none => [])).flatMap
    patchDirectiveOps

/-! ## Generation orchestrator (`generateFromTemplate`) -/

/-- The filename-case option (`GeneratorCaseOptions`). -/
inductive CaseOption where
  | auto | pascal | camel | kebab | snake | keep
  deriving DecidableEq, Repr

/-- Generator options (the fields the orchestrator reads). -/
structure GeneratorOptions where
  name : Str
  subdirectory : Str
  overwrite : Bool
  dir : Option Str := none
  case : Option CaseOption := none

/-- The property bag passed to `ejs.render`. -/
structure Props where
  camelCaseName : Str
  kebabCaseName : Str
  pascalCaseName : Str
  snakeCaseName : Str
  options : GeneratorOptions

/-- Build the property bag from the options, as the orchestrator does. -/
def mkProps (opts : GeneratorOptions) : Props :=
  { camelCaseName := camelCase opts.name
    kebabCaseName := kebabCase opts.name
    pascalCaseName := pascalCase opts.name
    snakeCaseName := snakeCase opts.name
    options := opts }

/-- External collaborators of the orchestrator: `YAML.parse`, `ejs.render`
(per-file failure is an `Except.error`), the effect of `handlePatches` on
the filesystem (gluegun's patching primitives modify existing files and
never create or delete one — stated as a hypothesis where needed), and the
default output directory `appDir()`. -/
structure GenEnv where
  yamlParse : Str → Except Unit FMData
  render : Str → Props → Except Unit Str
  applyPatches : FMData → Fs → Fs
  appDir : Str

/-- The relative destination path of a template file: the front-matter
`path` override, or `path(subdirectory, templateFilename with the source
directory prefix, the first ".ejs" and the first "NAME" replaced)`. -/
def relPathOf (opts : GeneratorOptions) (srcDir tf : Str) (data : FMData) : Str :=
  data.path.getD
    (pathJoin [opts.subdirectory,
      replaceFirst (S "NAME") opts.name
        (replaceFirst (S ".ejs") []
          (replaceFirst (srcDir ++ S "/") [] tf))])

/-- The case transform applied to the filename segment (`auto` and `none`
— constructor `keep` here — leave it as computed). -/
def formatFilename (c : CaseOption) (filename : Str) : Str :=
  match c with
  | .pascal => pascalCase filename
  | .kebab => kebabCase filename
  | .snake => snakeCase filename
  | .camel => camelCase filename
  | _ => filename

/-- Absolute destination: `path.join(options.dir ?? appDir(),
path.dirname(relativePath), formattedFilename)`. -/
def targetPathOf (env : GenEnv) (opts : GeneratorOptions) (srcDir tf : Str)
    (data : FMData) : Str :=
  pathJoin [opts.dir.getD env.appDir,
    pathDirname (relPathOf opts srcDir tf data),
    formatFilename ((opts.case).getD .auto) (pathBasename (relPathOf opts srcDir tf data))]

/-- Accumulated result of a generation run. -/
structure GenState where
  written : List Str := []
  overwritten : List Str := []
  existsL : List Str := []
  fs : Fs

/-- Processing of one template whose front matter parsed to `data` with
body `content` (the part of the loop body inside and after the
destination-path computation): skip to `exists` when the destination
exists and overwriting is off; otherwise render (a render error is caught
and leaves the state unchanged — the `catch` of the per-file `try`), write
and record the file, then apply any declared patches. -/
def generateStep (env : GenEnv) (opts : GeneratorOptions) (srcDir : Str)
    (tf : Str) (data : FMData) (content : Str) (st : GenState) : GenState :=
  let targetPath := targetPathOf env opts srcDir tf data
  let pathExists := (st.fs targetPath).isSome
  if pathExists && !opts.overwrite then
    { st with existsL := st.existsL ++ [targetPath] }
  else
    match env.render content (mkProps opts) with
    | .error _ => st
    | .ok generated =>
      let st1 :=
        if pathExists then
          { st with overwritten := st.overwritten ++ [targetPath],
                    fs := st.fs.write targetPath generated }
        else
          { st with written := st.written ++ [targetPath],
                    fs := st.fs.write targetPath generated }
      if data.patches.isSome || data.patch.isSome then
        { st1 with fs := env.applyPatches data st1.fs }
      else st1

/-- The per-template loop of `generateFromTemplate`.  Errors raised while
reading front matter — a `YAML.parse` failure, or the `TypeError` from
destructuring `data.path` when `frontMatter` returned `{}` — are *outside*
the `try` block and abort the whole run (`Except.error`).  Render errors
are caught per file and processing continues; files are recorded before
patches run, and patch errors are likewise caught after the record. -/
def generateGo (env : GenEnv) (opts : GeneratorOptions) (srcDir : Str) :
    List (Str × Str) → GenState → Except Unit GenState
  | [], st => .ok st
  | (tf, tcontent) :: rest, st =>
    if isBlank tcontent then generateGo env opts srcDir rest st
    else
      match frontMatter env.yamlParse tcontent with
      | .error e => .error e
      | .ok none => .error ()
      | .ok (some (data, content)) =>
        generateGo env opts srcDir rest (generateStep env opts srcDir tf data content st)

/-- `generateFromTemplate(generator, options)` on the template files
`templates` (pairs of template path and raw content, as discovered by
`find`), starting from filesystem `fs0`. -/
def generateFromTemplate (env : GenEnv) (opts : GeneratorOptions) (srcDir : Str)
    (templates : List (Str × Str)) (fs0 : Fs) : Except Unit GenState :=
  generateGo env opts srcDir templates { fs := fs0 }

/-- The destination paths of the non-blank templates whose front matter
parses (used to state the idempotence property). -/
def targetsOf (env : GenEnv) (opts : GeneratorOptions) (srcDir : Str)
    (templates : List (Str × Str)) : List Str :=
  templates.filterMap (fun t =>
    if isBlank t.2 then none
    else
      match frontMatter env.yamlParse t.2 with
      | .ok (some (data, _)) => some (targetPathOf env opts srcDir t.1 data)
      | _ => none)

/-! ## Helper lemmas about the string primitives -/

theorem takeWhile_append_of {p : Char → Bool} {a : Str} {y : Char} (b : Str)
    (ha : ∀ x ∈ a, p x = true) (hy : p y = false) :
    (a ++ y :: b).takeWhile p = a := by
  induction a with
  | nil => simp [List.takeWhile, hy]
  | cons x t ih =>
    have hx : p x = true := ha x (by simp)
    simp only [List.cons_append, List.takeWhile, hx]
    rw [List.append_eq, ih (fun z hz => ha z (by simp [hz]))]

theorem dropWhile_append_of {p : Char → Bool} {a : Str} {y : Char} (b : Str)
    (ha : ∀ x ∈ a, p x = true) (hy : p y = false) :
    (a ++ y :: b).dropWhile p = y :: b := by
  induction a with
  | nil => simp [List.dropWhile, hy]
  | cons x t ih =>
    have hx : p x = true := ha x (by simp)
    simp only [List.cons_append, List.dropWhile, hx]
    exact ih (fun z hz => ha z (by simp [hz]))

theorem isPrefixOf_append_self (a b : Str) : a.isPrefixOf (a ++ b) = true := by
  simp [List.isPrefixOf_iff_prefix]

theorem sIncludes_append_mid (c a b : Str) : sIncludes c (a ++ c ++ b) = true := by
  induction a with
  | nil =>
    cases hc : c ++ b with
    | nil => simp_all [sIncludes, List.isEmpty_iff]
    | cons x t =>
      simp only [List.nil_append, hc, sIncludes, Bool.or_eq_true]
      left
      rw [← hc]
      exact isPrefixOf_append_self c b
  | cons x t ih =>
    simp only [List.cons_append, sIncludes, Bool.or_eq_true]
    right
    exact ih

theorem sIncludes_exists {c l : Str} (h : sIncludes c l = true) :
    ∃ a b, l = a ++ c ++ b := by
  induction l with
  | nil =>
    refine ⟨[], [], ?_⟩
    simp only [sIncludes, List.isEmpty_iff] at h
    simp [h]
  | cons x t ih =>
    simp only [sIncludes, Bool.or_eq_true] at h
    rcases h with h | h
    · rw [List.isPrefixOf_iff_prefix] at h
      obtain ⟨b, hb⟩ := h
      exact ⟨[], b, by simp [hb.symm]⟩
    · obtain ⟨a, b, hab⟩ := ih h
      exact ⟨x :: a, b, by simp [hab]⟩

theorem sIncludes_length_le {c l : Str} (h : sIncludes c l = true) :
    c.length ≤ l.length := by
  obtain ⟨a, b, rfl⟩ := sIncludes_exists h
  simp
  omega

theorem sIncludes_of_exists {c : Str} (a b : Str) :
    sIncludes c (a ++ (c ++ b)) = true := by
  have := sIncludes_append_mid c a b
  simpa using this

theorem replaceFirst_append_self {pat : Str} (rep rest : Str) (h : pat ≠ []) :
    replaceFirst pat rep (pat ++ rest) = rep ++ rest := by
  cases hp : pat with
  | nil => exact absurd hp h
  | cons c t =>
    subst hp
    simp only [List.cons_append, replaceFirst]
    rw [if_pos (by simpa using isPrefixOf_append_self (c :: t) rest)]
    congr 1
    simpa using List.drop_left (c :: t) rest

theorem replaceFirst_not_includes {pat l : Str} (rep : Str)
    (h : sIncludes pat l = false) : replaceFirst pat rep l = l := by
  induction l with
  | nil =>
    simp only [sIncludes] at h
    simp [replaceFirst, h]
  | cons x t ih =>
    simp only [sIncludes, Bool.or_eq_false_iff] at h
    simp only [replaceFirst, h.1, Bool.false_eq_true, if_false]
    rw [ih h.2]

theorem mem_replaceFirst_nil {pat l : Str} {x : Char}
    (h : x ∈ replaceFirst pat [] l) : x ∈ l := by
  induction l with
  | nil =>
    simp only [replaceFirst] at h
    split at h <;> simp_all
  | cons c t ih =>
    simp only [replaceFirst] at h
    split at h
    · simp only [List.nil_append] at h
      exact List.mem_of_mem_drop h
    · rcases List.mem_cons.mp h with h | h
      · simp [h]
      · exact List.mem_cons_of_mem c (ih h)

theorem mem_trimStr {s : Str} {x : Char} (h : x ∈ trimStr s) : x ∈ s := by
  unfold trimStr at h
  rw [List.mem_reverse] at h
  have h1 := List.dropWhile_sublist (l := (s.dropWhile isJsWS).reverse) isJsWS
  have h2 := h1.mem h
  rw [List.mem_reverse] at h2
  exact (List.dropWhile_sublist (l := s) isJsWS).mem h2

/-! ## Splitting/joining lemmas -/

theorem splitOnL_no_sep {c : Char} {s : Str} (h : c ∉ s) :
    splitOnL [c] s = [s] := by
  induction s with
  | nil => rfl
  | cons x t ih =>
    have hx : x ≠ c := fun hc => h (by simp [hc])
    have hnp : ¬(([c] : Str) ≠ [] ∧ List.isPrefixOf [c] (x :: t) = true) := by
      intro ⟨_, hp⟩
      simp [List.isPrefixOf] at hp
      exact hx hp.symm
    rw [splitOnL_cons_neg hnp, ih (fun hm => h (by simp [hm]))]

theorem splitOnL_cons_sep {c : Char} {a : Str} (b : Str) (h : c ∉ a) :
    splitOnL [c] (a ++ c :: b) = a :: splitOnL [c] b := by
  induction a with
  | nil =>
    rw [List.nil_append]
    have hp : ([c] : Str) ≠ [] ∧ List.isPrefixOf [c] (c :: b) = true := by
      refine ⟨by simp, ?_⟩
      simp [List.isPrefixOf]
    rw [splitOnL_cons_pos hp]
    simp
  | cons x t ih =>
    have hx : x ≠ c := fun hc => h (by simp [hc])
    rw [List.cons_append]
    have hnp : ¬(([c] : Str) ≠ [] ∧ List.isPrefixOf [c] (x :: (t ++ c :: b)) = true) := by
      intro ⟨_, hp⟩
      simp [List.isPrefixOf] at hp
      exact hx hp.symm
    rw [splitOnL_cons_neg hnp, ih (fun hm => h (by simp [hm]))]

theorem mem_splitOnL_single {c : Char} :
    ∀ (s : Str), ∀ l ∈ splitOnL [c] s, c ∉ l
  | [] => by simp [splitOnL, splitOnLGo]
  | x :: t => by
    by_cases hp : ([c] : Str) ≠ [] ∧ List.isPrefixOf [c] (x :: t) = true
    · rw [splitOnL_cons_pos hp]
      intro l hl
      rcases List.mem_cons.mp hl with rfl | hl
      · simp
      · exact mem_splitOnL_single t l (by simpa using hl)
    · rw [splitOnL_cons_neg hp]
      have hx : x ≠ c := by
        intro hc
        exact hp ⟨by simp, by simp [List.isPrefixOf, hc]⟩
      cases hst : splitOnL [c] t with
      | nil =>
        intro l hl
        rcases List.mem_cons.mp hl with rfl | hl
        · simp [Ne.symm hx]
        · simp at hl
      | cons p ps =>
        intro l hl
        rcases List.mem_cons.mp hl with rfl | hl
        · have hcp : c ∉ p := mem_splitOnL_single t p (by simp [hst])
          intro hm
          rcases List.mem_cons.mp hm with rfl | hm
          · exact hx rfl
          · exact hcp hm
        · exact mem_splitOnL_single t l (by simp [hst, hl])
  termination_by s => s.length

theorem splitLines_joinLines :
    ∀ (ls : List Str), (∀ l ∈ ls, '\n' ∉ l) → ls ≠ [] →
      splitLines (joinLines ls) = ls
  | [], _, hne => absurd rfl hne
  | [a], h, _ => by
    simp only [joinLines, List.intercalate, List.intersperse, List.flatten,
      List.append_nil, splitLines]
    exact splitOnL_no_sep (h a (by simp))
  | a :: b :: rest, h, _ => by
    have hjoin : joinLines (a :: b :: rest) = a ++ '\n' :: joinLines (b :: rest) := by
      simp [joinLines, List.intercalate, List.intersperse_cons_cons, List.flatten_cons]
    rw [hjoin]
    unfold splitLines
    rw [splitOnL_cons_sep _ (h a (by simp))]
    have := splitLines_joinLines (b :: rest) (fun l hl => h l (by simp [hl])) (by simp)
    unfold splitLines at this
    rw [this]

/-! ## Regex matcher lemmas -/

theorem starRems_ne_nil (p : Char → Bool) (l : Str) : starRems p l ≠ [] := by
  cases l with
  | nil => simp [starRems]
  | cons x xs =>
    simp only [starRems]
    split <;> simp

theorem self_mem_starRems (p : Char → Bool) (l : Str) : l ∈ starRems p l := by
  cases l with
  | nil => simp [starRems]
  | cons x xs =>
    simp only [starRems]
    split <;> simp

theorem mem_starRems_append {p : Char → Bool} :
    ∀ (a b : Str), (∀ x ∈ a, p x = true) → b ∈ starRems p (a ++ b)
  | [], b, _ => by simpa using self_mem_starRems p b
  | x :: t, b, h => by
    have hx := h x (by simp)
    simp only [List.cons_append, starRems, hx, if_true]
    exact List.mem_append_left _ (mem_starRems_append t b (fun z hz => h z (by simp [hz])))

theorem flatMap_ne_nil {α β : Type} {f : α → List β} {l : List α} {a : α}
    (h : a ∈ l) (h2 : f a ≠ []) : l.flatMap f ≠ [] := by
  intro hc
  exact h2 (List.flatMap_eq_nil_iff.mp hc a h)

theorem strRems_append (a b : Str) : (Reg.str a).rems (a ++ b) = [b] := by
  simp [Reg.rems, isPrefixOf_append_self, List.drop_left]

theorem seqRems_ne {a b : Reg} {l m : Str}
    (hm : m ∈ a.rems l) (hb : b.rems m ≠ []) : (Reg.seq a b).rems l ≠ [] := by
  simp only [Reg.rems]
  exact flatMap_ne_nil hm hb

/-- The first alternative of the markup pattern matches at a position where
the comment token is immediately followed by the prefix. -/
theorem markupPattern_rems_line (pfx rest : Str) (tok : Str)
    (htok : tok = S "//" ∨ tok = S "#") :
    (markupPattern pfx).rems (tok ++ pfx ++ rest) ≠ [] := by
  have halt : (pfx ++ rest) ∈
      (Reg.alt (.str (S "//")) (.str (S "#"))).rems (tok ++ pfx ++ rest) := by
    rcases htok with rfl | rfl
    · show (pfx ++ rest) ∈ (Reg.str (S "//")).rems (S "//" ++ pfx ++ rest) ++
        (Reg.str (S "#")).rems (S "//" ++ pfx ++ rest)
      refine List.mem_append_left _ ?_
      rw [List.append_assoc, strRems_append]
      simp
    · show (pfx ++ rest) ∈ (Reg.str (S "//")).rems (S "#" ++ pfx ++ rest) ++
        (Reg.str (S "#")).rems (S "#" ++ pfx ++ rest)
      refine List.mem_append_right _ ?_
      rw [List.append_assoc, strRems_append]
      simp
  have hinner :
      (Reg.seq (.starCh 's') (.seq (.str pfx) .starDot)).rems (pfx ++ rest) ≠ [] := by
    refine seqRems_ne (self_mem_starRems _ (pfx ++ rest)) ?_
    refine seqRems_ne (show rest ∈ (Reg.str pfx).rems (pfx ++ rest) by
      rw [strRems_append]; simp) ?_
    exact starRems_ne_nil _ rest
  have h1 : (Reg.seq (.alt (.str (S "//")) (.str (S "#")))
      (.seq (.starCh 's') (.seq (.str pfx) .starDot))).rems (tok ++ pfx ++ rest) ≠ [] :=
    seqRems_ne halt hinner
  obtain ⟨x, hx⟩ := List.exists_mem_of_ne_nil _ h1
  exact List.ne_nil_of_mem
    (show x ∈ (markupPattern pfx).rems (tok ++ pfx ++ rest) from List.mem_append_left _ hx)

/-- The second alternative matches a `/ … prefix … /` fragment with no
newline inside the dotted parts. -/
theorem markupPattern_rems_block (pfx a b rest : Str)
    (ha : ∀ x ∈ a, x ≠ '\n') (hb : ∀ x ∈ b, x ≠ '\n') :
    (markupPattern pfx).rems ('/' :: (a ++ (pfx ++ (b ++ '/' :: rest)))) ≠ [] := by
  have hopt : ('/' :: (a ++ (pfx ++ (b ++ '/' :: rest)))) ∈
      (Reg.optCh '{').rems ('/' :: (a ++ (pfx ++ (b ++ '/' :: rest)))) := by
    simp [Reg.rems]
  have h2 : (Reg.seq (.ch '/')
      (.seq .starDot (.seq (.str pfx) (.seq .starDot (.seq (.ch '/') (.optCh '}')))))).rems
      ('/' :: (a ++ (pfx ++ (b ++ '/' :: rest)))) ≠ [] := by
    refine seqRems_ne (show (a ++ (pfx ++ (b ++ '/' :: rest))) ∈
      (Reg.ch '/').rems ('/' :: (a ++ (pfx ++ (b ++ '/' :: rest)))) by simp [Reg.rems]) ?_
    refine seqRems_ne (show (pfx ++ (b ++ '/' :: rest)) ∈
      Reg.starDot.rems (a ++ (pfx ++ (b ++ '/' :: rest))) by
        simp only [Reg.rems]
        exact mem_starRems_append a _ (fun x hx => by simp [ha x hx])) ?_
    refine seqRems_ne (show (b ++ '/' :: rest) ∈
      (Reg.str pfx).rems (pfx ++ (b ++ '/' :: rest)) by rw [strRems_append]; simp) ?_
    refine seqRems_ne (show ('/' :: rest) ∈ Reg.starDot.rems (b ++ '/' :: rest) by
        simp only [Reg.rems]
        exact mem_starRems_append b _ (fun x hx => by simp [hb x hx])) ?_
    refine seqRems_ne (show rest ∈ (Reg.ch '/').rems ('/' :: rest) by simp [Reg.rems]) ?_
    simp [Reg.rems]
  have h3 := seqRems_ne hopt h2
  obtain ⟨x, hx⟩ := List.exists_mem_of_ne_nil _ h3
  exact List.ne_nil_of_mem
    (show x ∈ (markupPattern pfx).rems ('/' :: (a ++ (pfx ++ (b ++ '/' :: rest)))) from
      List.mem_append_right _ hx)

/-- If the pattern matches at some position `i`, scanning from any `j ≤ i`
finds a match. -/
theorem execFromGo_isSome (r : Reg) (total : Str) (i : Nat) (hi : i ≤ total.length)
    (h : r.rems (total.drop i) ≠ []) :
    ∀ (fuel j : Nat), j ≤ i → total.length + 1 - j ≤ fuel →
      (execFromGo r total fuel j).isSome := by
  intro fuel
  induction fuel with
  | zero =>
    intro j hj hfu
    omega
  | succ n ihn =>
    intro j hj hfu
    rw [execFromGo, if_neg (by omega)]
    cases hh : (r.rems (total.drop j)).head? with
    | some rem => simp
    | none =>
      by_cases hji : j = i
      · subst hji
        exact absurd (List.head?_eq_none_iff.mp hh) h
      · rw [if_neg (by omega)]
        exact ihn (j + 1) (by omega) (by omega)

theorem execFrom_isSome (r : Reg) (total : Str) (i : Nat) (hi : i ≤ total.length)
    (h : r.rems (total.drop i) ≠ []) :
    ∀ (j : Nat), j ≤ i → (execFrom r total j).isSome := by
  intro j hj
  exact execFromGo_isSome r total i hi h _ j hj (le_refl _)

/-- `testG` is true whenever the pattern matches somewhere at or after the
start position `0`. -/
theorem testG_true_of_rems (r : Reg) (total : Str) (i : Nat)
    (hi : i ≤ total.length) (h : r.rems (total.drop i) ≠ []) :
    (testG r total 0).1 = true := by
  have hs := execFrom_isSome r total i hi h 0 (Nat.zero_le i)
  obtain ⟨⟨s1, e1⟩, heq⟩ := Option.isSome_iff_exists.mp hs
  simp [testG, heq]

/-! ## Claim C5 -/

/-- Claim C5, counterexample.  The claim states that `markupRegex(prefix)`
matches every single-line comment of the form `// <prefix> <kind>` or
`# <prefix> <kind>` "with whitespace between the comment token and the
prefix".  It does not: the template literal building the pattern spells
`\s`, which JavaScript escape processing turns into the literal character
`s`, so the pattern requires the prefix to follow the comment token
directly (modulo a run of `s` characters).  With prefix `ignite`, the lines
`// ignite remove-current-line` and `# ignite remove-current-line` (one
space after the comment token) are not matched. -/
theorem markupRegex_whitespace_counterexample :
    (testG (markupPattern (S "ignite")) (S "// ignite remove-current-line") 0).1 = false ∧
    (testG (markupPattern (S "ignite")) (S "# ignite remove-current-line") 0).1 = false := by
  decide

/-- Claim C5, amended.  `markupRegex(prefix)` is built with the `g` and `m`
flags (modelled by `testG` scanning every position of the whole body), and
matches: (1) any occurrence of `//` immediately followed by the prefix,
anywhere in the text; (2) any occurrence of `#` immediately followed by the
prefix; (3) the best-effort block-comment form `/ … prefix … /` with no
newline between the slashes.  Whitespace between the comment token and the
prefix is *not* tolerated (the intended `\s*` reached the regex engine as
the literal `s*`). -/
theorem markupRegex_matches_amended :
    (∀ (pfx pre post : Str),
      (testG (markupPattern pfx) (pre ++ S "//" ++ pfx ++ post) 0).1 = true) ∧
    (∀ (pfx pre post : Str),
      (testG (markupPattern pfx) (pre ++ S "#" ++ pfx ++ post) 0).1 = true) ∧
    (∀ (pfx a b pre rest : Str), (∀ x ∈ a, x ≠ '\n') → (∀ x ∈ b, x ≠ '\n') →
      (testG (markupPattern pfx)
        (pre ++ '/' :: (a ++ (pfx ++ (b ++ '/' :: rest)))) 0).1 = true) := by
  refine ⟨?_, ?_, ?_⟩
  · intro pfx pre post
    rw [List.append_assoc, List.append_assoc]
    refine testG_true_of_rems _ _ pre.length (by simp) ?_
    rw [List.drop_left]
    rw [← List.append_assoc]
    exact markupPattern_rems_line pfx post _ (Or.inl rfl)
  · intro pfx pre post
    rw [List.append_assoc, List.append_assoc]
    refine testG_true_of_rems _ _ pre.length (by simp) ?_
    rw [List.drop_left]
    rw [← List.append_assoc]
    exact markupPattern_rems_line pfx post _ (Or.inr rfl)
  · intro pfx a b pre rest ha hb
    refine testG_true_of_rems _ _ pre.length (by simp) ?_
    rw [List.drop_left]
    exact markupPattern_rems_block pfx a b rest ha hb

/-- Claim C5, witness for the amended theorem: concrete instances of all
three parts at prefix `ignite`. -/
theorem markupRegex_matches_amended_witness :
    (testG (markupPattern (S "ignite")) (S "x\n" ++ S "//" ++ S "ignite" ++ S " remove-file") 0).1
        = true ∧
    (testG (markupPattern (S "ignite")) (S "" ++ S "#" ++ S "ignite" ++ S " remove-file") 0).1
        = true ∧
    (testG (markupPattern (S "ignite"))
        (S "a" ++ '/' :: (S "* " ++ (S "ignite" ++ (S " x *" ++ '/' :: S "")))) 0).1 = true :=
  ⟨markupRegex_matches_amended.1 (S "ignite") (S "x\n") (S " remove-file"),
   markupRegex_matches_amended.2.1 (S "ignite") (S "") (S " remove-file"),
   markupRegex_matches_amended.2.2 (S "ignite") (S "* ") (S " x *") (S "a") (S "")
     (by decide) (by decide)⟩

/-! ## Claim C8 -/

theorem joinLines_singleton (a : Str) : joinLines [a] = a := by
  simp [joinLines, List.intercalate]

theorem sIncludes_false_of_not_mem {pat l : Str} {c : Char}
    (hc : c ∈ pat) (h : c ∉ l) : sIncludes pat l = false := by
  cases hb : sIncludes pat l with
  | false => rfl
  | true =>
    obtain ⟨a, b, rfl⟩ := sIncludes_exists hb
    exact absurd (by simp [hc] : c ∈ a ++ pat ++ b) h

theorem isPrefixOf_cons_ne {p : Char} {pt : Str} {x : Char} (l : Str)
    (hne : p ≠ x) : List.isPrefixOf (p :: pt) (x :: l) = false := by
  simp [List.isPrefixOf, hne]

/-- Splitting a two-line body. -/
theorem splitLines_two (l1 l2 : Str) (h1 : '\n' ∉ l1) (h2 : '\n' ∉ l2) :
    splitLines (l1 ++ '\n' :: l2) = [l1, l2] := by
  unfold splitLines
  rw [splitOnL_cons_sep l2 h1, splitOnL_no_sep h2]

/-- Claim C8, counterexample.  The claim says `replace-next-line` yields the
bare replacement text for both `'//'`-style and `'#'`-style marker
comments; in fact the code removes only the first `"//"` occurrence, so a
`#`-style marker line leaves the `#` token (and an extra interior space) in
the replacement: the result is `#  REPLACED`, not `REPLACED`. -/
theorem replaceNextLine_hash_counterexample :
    replaceNextLine (S "# ignite replace-next-line REPLACED\nold")
        (markupComment (S "ignite") MarkupComments.ReplaceNextLine) = S "#  REPLACED" ∧
      S "#  REPLACED" ≠ S "REPLACED" := by
  constructor
  · decide
  · decide

theorem sIncludes_false_of_length {pat l : Str} (h : l.length < pat.length) :
    sIncludes pat l = false := by
  cases hb : sIncludes pat l with
  | false => rfl
  | true => exact absurd (sIncludes_length_le hb) (by omega)

/-- Plumbing of `replaceNextLine` on a two-line body whose first line is a
marker line: the marker line is dropped and the second line is replaced by
the marker surgery. -/
theorem replaceNextLine_two_lines (cm l1 l2 : Str)
    (hnl1 : '\n' ∉ l1) (hnl2 : '\n' ∉ l2)
    (hinc : sIncludes cm l1 = true)
    (hro : sIncludes cm (replaceMarkerSurgery cm l1) = false) :
    replaceNextLine (l1 ++ '\n' :: l2) cm = replaceMarkerSurgery cm l1 := by
  unfold replaceNextLine
  rw [splitLines_two l1 l2 hnl1 hnl2]
  show joinLines (List.filter _ (l1 :: (if sIncludes cm l1 = true
    then replaceMarkerSurgery cm l1 else l2) :: replaceNextLineMap cm (some l2) [])) = _
  rw [if_pos hinc]
  show joinLines (List.filter _ [l1, replaceMarkerSurgery cm l1]) = _
  simp only [List.filter, hinc, hro, Bool.not_true, Bool.not_false]
  exact joinLines_singleton _

/-- Claim C8, amended.  `replaceNextLine` replaces the line following a
marker line by the marker line's content after removing the first `"//"`
occurrence (the `"#"` token is *not* removed), removing the marker string,
and trimming; the marker line itself is removed.  Hence (for any prefix
made of ordinary characters): a `'//'`-style marker line
`// <marker> REPLACED` followed by `old` yields exactly `REPLACED`; a bare
marker line `<marker> REPLACED` (the spec's own example) also yields
`REPLACED`; but a `'#'`-style marker line yields `#  REPLACED` — the
comment token and an extra interior space survive. -/
theorem replaceNextLine_amended (pfx : Str) (h1 : pfx ≠ [])
    (h2 : ∀ c ∈ pfx, c ≠ '\n' ∧ c ≠ '/' ∧ c ≠ '#')
    (h3 : pfx.head? ≠ some ' ') :
    replaceNextLine ((S "// " ++ markupComment pfx .ReplaceNextLine ++ S " REPLACED") ++
        '\n' :: S "old") (markupComment pfx .ReplaceNextLine) = S "REPLACED" ∧
    replaceNextLine ((markupComment pfx .ReplaceNextLine ++ S " REPLACED") ++
        '\n' :: S "old") (markupComment pfx .ReplaceNextLine) = S "REPLACED" ∧
    replaceNextLine ((S "# " ++ markupComment pfx .ReplaceNextLine ++ S " REPLACED") ++
        '\n' :: S "old") (markupComment pfx .ReplaceNextLine) = S "#  REPLACED" := by
  obtain ⟨ph, pt, rfl⟩ : ∃ ph pt, pfx = ph :: pt := by
    cases pfx with
    | nil => exact absurd rfl h1
    | cons a b => exact ⟨a, b, rfl⟩
  have hph := h2 ph (by simp)
  have hphs : ph ≠ ' ' := by
    intro hc
    exact h3 (by simp [hc])
  have hcm : markupComment (ph :: pt) MarkupComments.ReplaceNextLine =
      ph :: ((pt ++ [' ']) ++ S "replace-next-line") := rfl
  have hcm_len : 19 ≤ (markupComment (ph :: pt) MarkupComments.ReplaceNextLine).length := by
    rw [hcm]
    simp [S]
  have hnotin_cm : ∀ (c : Char), c ≠ ' ' → (∀ x ∈ S "replace-next-line", c ≠ x) →
      (∀ x ∈ ph :: pt, c ≠ x) →
      c ∉ markupComment (ph :: pt) MarkupComments.ReplaceNextLine := by
    intro c hsp hval hpfx hinc
    rw [hcm] at hinc
    rcases List.mem_cons.mp hinc with hc | hinc
    · exact hpfx ph (by simp) hc
    · rcases List.mem_append.mp hinc with hinc | hinc
      · rcases List.mem_append.mp hinc with hinc | hinc
        · exact hpfx c (by simp [hinc]) rfl
        · simp at hinc
          exact hsp hinc
      · exact hval c hinc rfl
  have hnl_cm : '\n' ∉ markupComment (ph :: pt) MarkupComments.ReplaceNextLine := by
    refine hnotin_cm '\n' (by decide) (by decide) ?_
    intro x hx heq
    exact (h2 x hx).1 heq.symm
  have hsl_cm : '/' ∉ markupComment (ph :: pt) MarkupComments.ReplaceNextLine := by
    refine hnotin_cm '/' (by decide) (by decide) ?_
    intro x hx heq
    exact (h2 x hx).2.1 heq.symm
  -- the middle surgery step: removing the marker from `' ' :: cm ++ " REPLACED"`
  have hstep2 : replaceFirst (markupComment (ph :: pt) MarkupComments.ReplaceNextLine) []
      (' ' :: (markupComment (ph :: pt) MarkupComments.ReplaceNextLine ++ S " REPLACED")) =
      ' ' :: S " REPLACED" := by
    show (if List.isPrefixOf _ _ then _ else _) = _
    rw [if_neg (by
      rw [hcm]
      rw [isPrefixOf_cons_ne _ hphs]
      simp)]
    congr 1
    rw [replaceFirst_append_self [] (S " REPLACED") (by rw [hcm]; simp)]
    rfl
  refine ⟨?_, ?_, ?_⟩
  · -- '//'-style
    have hsurg : replaceMarkerSurgery (markupComment (ph :: pt) MarkupComments.ReplaceNextLine)
        ((S "// " ++ markupComment (ph :: pt) MarkupComments.ReplaceNextLine ++ S " REPLACED"))
        = S "REPLACED" := by
      unfold replaceMarkerSurgery
      have hs1 : replaceFirst (S "//") []
          ((S "// " ++ markupComment (ph :: pt) MarkupComments.ReplaceNextLine ++ S " REPLACED"))
          = ' ' :: (markupComment (ph :: pt) MarkupComments.ReplaceNextLine ++ S " REPLACED") := by
        have := @replaceFirst_append_self (S "//") []
          (' ' :: (markupComment (ph :: pt) MarkupComments.ReplaceNextLine ++ S " REPLACED"))
          (by decide)
        exact this
      rw [hs1, hstep2]
      decide
    rw [replaceNextLine_two_lines _ _ _
      (by
        intro hm
        rcases List.mem_append.mp hm with hm | hm
        · rcases List.mem_append.mp hm with hm | hm
          · exact absurd hm (by decide)
          · exact hnl_cm hm
        · exact absurd hm (by decide))
      (by decide)
      (sIncludes_append_mid _ (S "// ") (S " REPLACED"))
      (by
        rw [hsurg]
        exact sIncludes_false_of_length (by simp [S] at hcm_len ⊢; omega))]
    · exact hsurg
  · -- bare marker line (the spec's example shape)
    have hsurg : replaceMarkerSurgery (markupComment (ph :: pt) MarkupComments.ReplaceNextLine)
        ((markupComment (ph :: pt) MarkupComments.ReplaceNextLine ++ S " REPLACED"))
        = S "REPLACED" := by
      unfold replaceMarkerSurgery
      have hs1 : replaceFirst (S "//") []
          (markupComment (ph :: pt) MarkupComments.ReplaceNextLine ++ S " REPLACED")
          = markupComment (ph :: pt) MarkupComments.ReplaceNextLine ++ S " REPLACED" := by
        refine replaceFirst_not_includes []
          (sIncludes_false_of_not_mem (c := '/') (by decide) ?_)
        intro hm
        rcases List.mem_append.mp hm with hm | hm
        · exact hsl_cm hm
        · exact absurd hm (by decide)
      rw [hs1, replaceFirst_append_self [] (S " REPLACED") (by rw [hcm]; simp)]
      decide
    rw [replaceNextLine_two_lines _ _ _
      (by
        intro hm
        rcases List.mem_append.mp hm with hm | hm
        · exact hnl_cm hm
        · exact absurd hm (by decide))
      (by decide)
      (by
        have := sIncludes_append_mid
          (markupComment (ph :: pt) MarkupComments.ReplaceNextLine) [] (S " REPLACED")
        simpa using this)
      (by
        rw [hsurg]
        exact sIncludes_false_of_length (by simp [S] at hcm_len ⊢; omega))]
    · exact hsurg
  · -- '#'-style
    have hsurg : replaceMarkerSurgery (markupComment (ph :: pt) MarkupComments.ReplaceNextLine)
        ((S "# " ++ markupComment (ph :: pt) MarkupComments.ReplaceNextLine ++ S " REPLACED"))
        = S "#  REPLACED" := by
      unfold replaceMarkerSurgery
      have hs1 : replaceFirst (S "//") []
          ((S "# " ++ markupComment (ph :: pt) MarkupComments.ReplaceNextLine ++ S " REPLACED"))
          = (S "# " ++ markupComment (ph :: pt) MarkupComments.ReplaceNextLine ++ S " REPLACED") := by
        refine replaceFirst_not_includes []
          (sIncludes_false_of_not_mem (c := '/') (by decide) ?_)
        intro hm
        rcases List.mem_append.mp hm with hm | hm
        · rcases List.mem_append.mp hm with hm | hm
          · exact absurd hm (by decide)
          · exact hsl_cm hm
        · exact absurd hm (by decide)
      rw [hs1]
      have hs2 : replaceFirst (markupComment (ph :: pt) MarkupComments.ReplaceNextLine) []
          ((S "# " ++ markupComment (ph :: pt) MarkupComments.ReplaceNextLine ++ S " REPLACED"))
          = '#' :: (' ' :: S " REPLACED") := by
        show (if List.isPrefixOf _ _ then _ else _) = _
        rw [if_neg (by
          rw [hcm]
          rw [isPrefixOf_cons_ne _ hph.2.2]
          simp)]
        congr 1
      rw [hs2]
      decide
    rw [replaceNextLine_two_lines _ _ _
      (by
        intro hm
        rcases List.mem_append.mp hm with hm | hm
        · rcases List.mem_append.mp hm with hm | hm
          · exact absurd hm (by decide)
          · exact hnl_cm hm
        · exact absurd hm (by decide))
      (by decide)
      (sIncludes_append_mid _ (S "# ") (S " REPLACED"))
      (by
        rw [hsurg]
        exact sIncludes_false_of_length (by simp [S] at hcm_len ⊢; omega))]
    · exact hsurg

/-- Claim C8, witness for the amended theorem at prefix `ignite`. -/
theorem replaceNextLine_amended_witness :
    replaceNextLine ((S "// " ++ markupComment (S "ignite") .ReplaceNextLine ++ S " REPLACED") ++
        '\n' :: S "old") (markupComment (S "ignite") .ReplaceNextLine) = S "REPLACED" ∧
    replaceNextLine ((markupComment (S "ignite") .ReplaceNextLine ++ S " REPLACED") ++
        '\n' :: S "old") (markupComment (S "ignite") .ReplaceNextLine) = S "REPLACED" ∧
    replaceNextLine ((S "# " ++ markupComment (S "ignite") .ReplaceNextLine ++ S " REPLACED") ++
        '\n' :: S "old") (markupComment (S "ignite") .ReplaceNextLine) = S "#  REPLACED" :=
  replaceNextLine_amended (S "ignite") (by decide) (by decide) (by decide)

/-! ## Claim C4 -/

/-- The lines obtained by re-splitting a joined line list are the original
lines, or the empty line (when the list was empty). -/
theorem mem_splitLines_joinLines {ls : List Str} (h : ∀ l ∈ ls, '\n' ∉ l) :
    ∀ l ∈ splitLines (joinLines ls), l ∈ ls ∨ l = [] := by
  cases hls : ls with
  | nil =>
    intro l hl
    right
    simpa [joinLines, List.intercalate, splitLines, splitOnL, splitOnLGo] using hl
  | cons a t =>
    rw [← hls, splitLines_joinLines ls h (by simp [hls])]
    intro l hl
    exact Or.inl hl

theorem removeNextLineCore_subset (comment : Str) :
    ∀ (ls : List Str) (prev : Option Str) (l : Str),
      l ∈ removeNextLineCore comment prev ls → l ∈ ls := by
  intro ls
  induction ls with
  | nil => intro prev l hl; cases prev <;> simp [removeNextLineCore] at hl
  | cons q t ih =>
    intro prev l hl
    cases prev with
    | none =>
      simp only [removeNextLineCore] at hl
      rcases List.mem_append.mp hl with hl | hl
      · split at hl <;> simp_all
      · exact List.mem_cons_of_mem q (ih (some q) l hl)
    | some p =>
      simp only [removeNextLineCore] at hl
      rcases List.mem_append.mp hl with hl | hl
      · split at hl <;> simp_all
      · exact List.mem_cons_of_mem q (ih (some q) l hl)

theorem removeNextLineCore_no_marker (comment : Str) :
    ∀ (ls : List Str) (prev : Option Str) (l : Str),
      l ∈ removeNextLineCore comment prev ls → sIncludes comment l = false := by
  intro ls
  induction ls with
  | nil => intro prev l hl; cases prev <;> simp [removeNextLineCore] at hl
  | cons q t ih =>
    intro prev l hl
    cases prev with
    | none =>
      simp only [removeNextLineCore] at hl
      rcases List.mem_append.mp hl with hl | hl
      · split at hl <;> simp_all
      · exact ih (some q) l hl
    | some p =>
      simp only [removeNextLineCore] at hl
      rcases List.mem_append.mp hl with hl | hl
      · split at hl <;> simp_all
      · exact ih (some q) l hl

/-- Characters of the marker surgery come from the marker line. -/
theorem mem_replaceMarkerSurgery {cm p : Str} {x : Char}
    (h : x ∈ replaceMarkerSurgery cm p) : x ∈ p :=
  mem_replaceFirst_nil (mem_replaceFirst_nil (mem_trimStr h))

theorem replaceNextLineMap_not_mem (comment : Str) (c : Char) :
    ∀ (ls : List Str) (prev : Option Str),
      (∀ p, prev = some p → c ∉ p) → (∀ l ∈ ls, c ∉ l) →
      ∀ l ∈ replaceNextLineMap comment prev ls, c ∉ l := by
  intro ls
  induction ls with
  | nil => intro prev _ _ l hl; cases prev <;> simp [replaceNextLineMap] at hl
  | cons q t ih =>
    intro prev hprev hls l hl
    simp only [replaceNextLineMap] at hl
    rcases List.mem_cons.mp hl with rfl | hl
    · cases prev with
      | none => exact hls q (by simp)
      | some p =>
        show c ∉ (if sIncludes comment p = true then replaceMarkerSurgery comment p else q)
        by_cases hinc : sIncludes comment p = true
        · rw [if_pos hinc]
          intro hc
          exact hprev p rfl (mem_replaceMarkerSurgery hc)
        · rw [if_neg hinc]
          exact hls q (by simp)
    · exact ih (some q) (fun p hp => by cases hp; exact hls q (by simp))
        (fun z hz => hls z (by simp [hz])) l hl

theorem removeBlocksGo_subset (start end_ : Str) :
    ∀ (fuel : Nat) (lines out : List Str),
      removeBlocksGo start end_ fuel lines = some out → ∀ l ∈ out, l ∈ lines := by
  intro fuel
  induction fuel with
  | zero => intro lines out h; simp [removeBlocksGo] at h
  | succ n ih =>
    intro lines out h
    rw [removeBlocksGo] at h
    split at h
    · rename_i si ei _ _
      split at h
      · cases h
      · have hsub : ∀ l ∈ spliceRemove lines si (ei - si + 1), l ∈ lines := by
          intro l hl
          rcases List.mem_append.mp hl with hl | hl
          · exact List.mem_of_mem_take hl
          · exact List.mem_of_mem_drop hl
        simp only [] at h
        split at h
        · intro l hl
          exact hsub l (ih _ out h l hl)
        · cases h
          exact hsub
    · cases h
      exact fun l hl => hl

theorem removeBlocksGo_post (start end_ : Str) :
    ∀ (fuel : Nat) (lines out : List Str),
      removeBlocksGo start end_ fuel lines = some out →
      ¬((findIndexIncl out start).isSome = true ∧ (findIndexIncl out end_).isSome = true) := by
  intro fuel
  induction fuel with
  | zero => intro lines out h; simp [removeBlocksGo] at h
  | succ n ih =>
    intro lines out h
    rw [removeBlocksGo] at h
    split at h
    · split at h
      · cases h
      · simp only [] at h
        split at h
        · exact ih _ out h
        · rename_i hflag
          cases h
          intro ⟨ha, hb⟩
          rw [ha, hb] at hflag
          simp at hflag
    · rename_i hcatch
      cases h
      intro ⟨ha, hb⟩
      obtain ⟨si, hsi⟩ := Option.isSome_iff_exists.mp ha
      obtain ⟨ei, hei⟩ := Option.isSome_iff_exists.mp hb
      exact hcatch si ei hsi hei

theorem findIndexIncl_isSome_of_mem {lines : List Str} {l c : Str}
    (hl : l ∈ lines) (hc : sIncludes c l = true) :
    (findIndexIncl lines c).isSome = true := by
  unfold findIndexIncl
  rw [List.findIdx?_isSome]
  exact List.any_eq_true.mpr ⟨l, hl, hc⟩

theorem deleteFilesGo_mono (comment : Str) (dr : Bool) :
    ∀ (paths : List Str) (fs : Fs) (acc : List Str) (p c : Str),
      (deleteFilesGo comment dr paths fs acc).2 p = some c → fs p = some c := by
  intro paths
  induction paths with
  | nil => intro fs acc p c h; exact h
  | cons q rest ih =>
    intro fs acc p c h
    simp only [deleteFilesGo] at h
    split at h
    · split at h
      · have := ih _ _ p c h
        cases dr with
        | true => simpa using this
        | false =>
          simp only [Bool.false_eq_true, if_false] at this
          unfold Fs.remove at this
          by_cases hpq : p = q
          · rw [if_pos hpq] at this; cases this
          · rw [if_neg hpq] at this; exact this
      · exact ih _ _ p c h
    · exact ih _ _ p c h

theorem deleteFilesGo_no_marker (comment : Str) :
    ∀ (paths : List Str) (fs : Fs) (acc : List Str) (p c : Str),
      p ∈ paths → (deleteFilesGo comment false paths fs acc).2 p = some c →
      sIncludes comment c = false := by
  intro paths
  induction paths with
  | nil => intro fs acc p c hp; simp at hp
  | cons q rest ih =>
    intro fs acc p c hp h
    simp only [deleteFilesGo] at h
    split at h
    · rename_i contents hq
      split at h
      · rcases List.mem_cons.mp hp with rfl | hp
        · have := deleteFilesGo_mono comment false rest _ _ p c h
          simp only [Bool.false_eq_true, if_false] at this
          unfold Fs.remove at this
          rw [if_pos rfl] at this
          cases this
        · exact ih _ _ p c hp h
      · rename_i hinc
        rcases List.mem_cons.mp hp with rfl | hp
        · have := deleteFilesGo_mono comment false rest fs _ p c h
          rw [hq] at this
          cases this
          simpa using hinc
        · exact ih fs _ p c hp h
    · rename_i hq
      rcases List.mem_cons.mp hp with rfl | hp
      · have := deleteFilesGo_mono comment false rest fs acc p c h
        rw [hq] at this
        cases this
      · exact ih fs acc p c hp h

/-- Claim C4, counterexample.  A file containing an unpaired
`remove-block-start` marker survives a full non-dry-run pass with the
marker intact: `updateFile` returns the text unchanged (no matching
`remove-block-end` exists), and `deleteFiles` does not delete the file
(no `remove-file` marker). -/
theorem updateFile_marker_persists_counterexample :
    updateFile (S "hello\n// demo remove-block-start\nworld") (S "demo") =
      some (S "hello\n// demo remove-block-start\nworld") ∧
    sIncludes (markupComment (S "demo") MarkupComments.RemoveBlockStart)
      (S "hello\n// demo remove-block-start\nworld") = true ∧
    (deleteFiles [S "f"] (markupComment (S "demo") MarkupComments.RemoveFile) (some false)
      (fun p => if p = S "f" then some (S "hello\n// demo remove-block-start\nworld")
                else none)).1 = [] := by
  refine ⟨by decide, by decide, by decide⟩

/-- Claim C4, amended.  Each pass of `updateFile` erases the markers it
targets at the time it runs — `removeCurrentLine`, `removeNextLine` and
`replaceNextLine` leave no line containing their marker, a terminating
`removeBlocks` leaves no matched start/end pair, and a non-dry-run
`deleteFiles` leaves no surviving listed file containing the remove-file
marker — but a marker of a kind an earlier pass ignores (e.g. an unpaired
`remove-block-start`) can persist after the full composite pass. -/
theorem updateFile_per_pass_amended :
    (∀ (contents comment : Str), comment ≠ [] →
      ∀ l ∈ splitLines (removeCurrentLine contents comment), sIncludes comment l = false) ∧
    (∀ (contents comment : Str), comment ≠ [] →
      ∀ l ∈ splitLines (removeNextLine contents comment), sIncludes comment l = false) ∧
    (∀ (contents comment : Str), comment ≠ [] →
      ∀ l ∈ splitLines (replaceNextLine contents comment), sIncludes comment l = false) ∧
    (∀ (contents s e r : Str), removeBlocks contents s e = some r → s ≠ [] → e ≠ [] →
      ¬(((splitLines r).any (fun l => sIncludes s l)) = true ∧
        ((splitLines r).any (fun l => sIncludes e l)) = true)) ∧
    (∀ (filePaths : List Str) (comment : Str) (fs : Fs) (p c : Str),
      p ∈ filePaths → ((deleteFiles filePaths comment (some false) fs).2) p = some c →
      sIncludes comment c = false) := by
  have hempty : ∀ (comment : Str), comment ≠ [] → sIncludes comment [] = false := by
    intro comment hc
    cases hcc : comment with
    | nil => exact absurd hcc hc
    | cons a b => simp [sIncludes, hcc]
  refine ⟨?_, ?_, ?_, ?_, ?_⟩
  · intro contents comment hcne l hl
    have hlines := @mem_splitOnL_single '\n' contents
    have hkept : ∀ z ∈ (splitLines contents).filter (fun line => !sIncludes comment line),
        '\n' ∉ z := by
      intro z hz
      exact hlines z (List.mem_of_mem_filter hz)
    rcases mem_splitLines_joinLines hkept l hl with hm | rfl
    · have := List.of_mem_filter hm
      simpa using this
    · exact hempty comment hcne
  · intro contents comment hcne l hl
    have hlines := @mem_splitOnL_single '\n' contents
    have hkept : ∀ z ∈ removeNextLineCore comment none (splitLines contents), '\n' ∉ z := by
      intro z hz
      exact hlines z (removeNextLineCore_subset comment _ none z hz)
    rcases mem_splitLines_joinLines hkept l hl with hm | rfl
    · exact removeNextLineCore_no_marker comment _ none l hm
    · exact hempty comment hcne
  · intro contents comment hcne l hl
    have hlines := @mem_splitOnL_single '\n' contents
    have hmapped : ∀ z ∈ replaceNextLineMap comment none (splitLines contents), '\n' ∉ z :=
      replaceNextLineMap_not_mem comment '\n' _ none (by simp) hlines
    have hkept : ∀ z ∈ (replaceNextLineMap comment none (splitLines contents)).filter
        (fun line => !sIncludes comment line), '\n' ∉ z := by
      intro z hz
      exact hmapped z (List.mem_of_mem_filter hz)
    rcases mem_splitLines_joinLines hkept l hl with hm | rfl
    · have := List.of_mem_filter hm
      simpa using this
    · exact hempty comment hcne
  · intro contents s e r hr hs he
    obtain ⟨lines', hgo, rfl⟩ := Option.map_eq_some'.mp hr
    have hsub := removeBlocksGo_subset s e _ _ _ hgo
    have hlines : ∀ l ∈ lines', '\n' ∉ l := by
      intro l hl
      exact mem_splitOnL_single contents l (hsub l hl)
    intro ⟨hsany, heany⟩
    obtain ⟨ls1, hls1, hls1i⟩ := List.any_eq_true.mp hsany
    obtain ⟨ls2, hls2, hls2i⟩ := List.any_eq_true.mp heany
    rcases mem_splitLines_joinLines hlines ls1 hls1 with hm1 | rfl
    · rcases mem_splitLines_joinLines hlines ls2 hls2 with hm2 | rfl
      · exact removeBlocksGo_post s e _ _ _ hgo
          ⟨findIndexIncl_isSome_of_mem hm1 hls1i, findIndexIncl_isSome_of_mem hm2 hls2i⟩
      · rw [hempty e he] at hls2i; cases hls2i
    · rw [hempty s hs] at hls1i; cases hls1i
  · intro filePaths comment fs p c hp h
    exact deleteFilesGo_no_marker comment filePaths fs [] p c hp h

/-- Claim C4, witness for the amended theorem: concrete instances of each
conjunct. -/
theorem updateFile_per_pass_amended_witness :
    sIncludes (S "demo remove-current-line") (S "a") = false ∧
    sIncludes (S "demo remove-next-line") (S "x") = false ∧
    sIncludes (S "demo replace-next-line") (S "x") = false ∧
    ¬(((splitLines (S "x")).any (fun l => sIncludes (S "demo remove-block-start") l)) = true ∧
      ((splitLines (S "x")).any (fun l => sIncludes (S "demo remove-block-end") l)) = true) ∧
    sIncludes (S "demo remove-file") (S "hello") = false := by
  refine ⟨?_, ?_, ?_, ?_, ?_⟩
  · exact updateFile_per_pass_amended.1
      (S "a\nx demo remove-current-line") (S "demo remove-current-line")
      (by decide) (S "a") (by decide)
  · exact updateFile_per_pass_amended.2.1
      (S "demo remove-next-line\ny\nx") (S "demo remove-next-line")
      (by decide) (S "x") (by decide)
  · exact updateFile_per_pass_amended.2.2.1
      (S "demo replace-next-line q\nold\nx") (S "demo replace-next-line")
      (by decide) (S "x") (by decide)
  · exact updateFile_per_pass_amended.2.2.2.1
      (S "x") (S "demo remove-block-start") (S "demo remove-block-end") (S "x")
      (by decide) (by decide) (by decide)
  · exact updateFile_per_pass_amended.2.2.2.2
      [S "f"] (S "demo remove-file")
      (fun p => if p = S "f" then some (S "hello") else none) (S "f") (S "hello")
      (by decide) (by decide)

/-! ## Claim C1 -/

/-- Claim C1, counterexample.  `updateFiles` creates `searchRegex =
markupRegex(markupPrefix)` once, before the loop, with the `g` flag, and
calls `searchRegex.test(contents)` for every file: the regex's `lastIndex`
carries over between files.  After file `a` (whose marker line is long)
matches, `lastIndex` points past the end of file `b`'s content, so `b` —
which contains a marker the detector matches when tested alone — is
recorded in `skippedFiles`.  Classification is therefore *not* independent
of preceding files, and a file in which the detector finds a match can
land in `skippedFiles`. -/
theorem updateFiles_lastIndex_counterexample :
    ((updateFiles [S "a", S "b"] (S "ignite") none none
        (fun p =>
          if p = S "a" then some (S "//ignite remove-current-line this is a long line")
          else if p = S "b" then some (S "//ignite x") else none)).map
      (fun r => (r.1, r.2.1))) = some ([S "a"], [S "b"]) ∧
    ((updateFiles [S "b"] (S "ignite") none none
        (fun p =>
          if p = S "a" then some (S "//ignite remove-current-line this is a long line")
          else if p = S "b" then some (S "//ignite x") else none)).map
      (fun r => (r.1, r.2.1))) = some ([S "b"], []) := by
  constructor
  · decide
  · decide

theorem updateFilesGo_spec (pfx : Str) (dryRun rmo : Bool) :
    ∀ (paths : List Str) (fs : Fs) (li : Nat) (up0 skp0 : List Str)
      (up skp : List Str) (fs' : Fs),
      updateFilesGo pfx dryRun rmo paths fs li up0 skp0 = some (up, skp, fs') →
      ∃ upN skpN, up = up0 ++ upN ∧ skp = skp0 ++ skpN ∧
        List.Perm (upN ++ skpN) paths ∧
        ∀ p, p ∉ upN → fs' p = fs p := by
  intro paths
  induction paths with
  | nil =>
    intro fs li up0 skp0 up skp fs' h
    simp only [updateFilesGo, Option.some.injEq, Prod.mk.injEq] at h
    obtain ⟨rfl, rfl, rfl⟩ := h
    exact ⟨[], [], by simp, by simp, by simp, fun p _ => rfl⟩
  | cons path rest ih =>
    intro fs li up0 skp0 up skp fs' h
    simp only [updateFilesGo] at h
    by_cases hread : readFalsy (fs path) = true
    · rw [if_pos hread] at h
      obtain ⟨upN, skpN, h1, h2, h3, h4⟩ := ih fs li up0 (skp0 ++ [path]) up skp fs' h
      refine ⟨upN, path :: skpN, h1, by simpa using h2, ?_, h4⟩
      exact List.Perm.trans List.perm_middle (List.Perm.cons path h3)
    · rw [if_neg hread] at h
      by_cases htest : (testG (markupPattern pfx) ((fs path).getD []) li).1 = true
      · rw [if_neg (by rw [htest]; simp)] at h
        by_cases hdry : dryRun = true
        · rw [if_pos hdry] at h
          obtain ⟨upN, skpN, h1, h2, h3, h4⟩ := ih fs _ (up0 ++ [path]) skp0 up skp fs' h
          refine ⟨path :: upN, skpN, by simpa using h1, h2, List.Perm.cons path h3, ?_⟩
          intro p hp
          exact h4 p (fun hm => hp (List.mem_cons_of_mem path hm))
        · rw [if_neg hdry] at h
          by_cases hrmo : rmo = true
          · rw [if_pos hrmo] at h
            obtain ⟨upN, skpN, h1, h2, h3, h4⟩ := ih _ _ (up0 ++ [path]) skp0 up skp fs' h
            refine ⟨path :: upN, skpN, by simpa using h1, h2, List.Perm.cons path h3, ?_⟩
            intro p hp
            rw [h4 p (fun hm => hp (List.mem_cons_of_mem path hm))]
            unfold Fs.write
            rw [if_neg (fun hpq => hp (by simp [hpq]))]
          · rw [if_neg hrmo] at h
            split at h
            · cases h
            · obtain ⟨upN, skpN, h1, h2, h3, h4⟩ := ih _ _ (up0 ++ [path]) skp0 up skp fs' h
              refine ⟨path :: upN, skpN, by simpa using h1, h2, List.Perm.cons path h3, ?_⟩
              intro p hp
              rw [h4 p (fun hm => hp (List.mem_cons_of_mem path hm))]
              unfold Fs.write
              rw [if_neg (fun hpq => hp (by simp [hpq]))]
      · have htestf : (testG (markupPattern pfx) ((fs path).getD []) li).1 = false :=
          Bool.eq_false_iff.mpr htest
        rw [if_pos (by rw [htestf]; rfl)] at h
        obtain ⟨upN, skpN, h1, h2, h3, h4⟩ := ih fs _ up0 (skp0 ++ [path]) up skp fs' h
        refine ⟨upN, path :: skpN, h1, by simpa using h2, ?_, h4⟩
        exact List.Perm.trans List.perm_middle (List.Perm.cons path h3)

/-- Claim C1, amended.  Each input file is recorded in exactly one of
`updatedFiles`/`skippedFiles` (their concatenation is a permutation of the
input list), and any file not recorded in `updatedFiles` — in particular
every skipped file — is byte-identical before and after the call.  However
the classification itself is *not* independent of preceding files: the
shared `g`-flagged detector regex carries its `lastIndex` between the
per-file `test` calls (see the counterexample), so a file containing a
marker can be skipped depending on what was matched before it. -/
theorem updateFiles_amended :
    ∀ (filePaths : List Str) (pfx : Str) (dryRun rmo : Option Bool) (fs : Fs)
      (up skp : List Str) (fs' : Fs),
      updateFiles filePaths pfx dryRun rmo fs = some (up, skp, fs') →
      List.Perm (up ++ skp) filePaths ∧ (∀ p, p ∉ up → fs' p = fs p) := by
  intro filePaths pfx dryRun rmo fs up skp fs' h
  obtain ⟨upN, skpN, h1, h2, h3, h4⟩ :=
    updateFilesGo_spec pfx (dryRun.getD true) (rmo.getD false) filePaths fs 0 [] []
      up skp fs' h
  simp only [List.nil_append] at h1 h2
  subst h1 h2
  exact ⟨h3, h4⟩

/-- Claim C1, witness for the amended theorem: a one-file run on an
unreadable file. -/
theorem updateFiles_amended_witness :
    List.Perm (([] : List Str) ++ [S "a"]) [S "a"] ∧
    (∀ p, p ∉ ([] : List Str) → (fun _ => (none : Option Str)) p =
      (fun _ => (none : Option Str)) p) :=
  updateFiles_amended [S "a"] (S "x") none none (fun _ => none) [] [S "a"]
    (fun _ => none) rfl

/-! ## Claim C10 -/

theorem updateFilesGo_dryRun_id (pfx : Str) (rmo : Bool) :
    ∀ (paths : List Str) (fs : Fs) (li : Nat) (up0 skp0 : List Str),
      ∃ up skp, updateFilesGo pfx true rmo paths fs li up0 skp0 = some (up, skp, fs) := by
  intro paths
  induction paths with
  | nil => intro fs li up0 skp0; exact ⟨up0, skp0, rfl⟩
  | cons path rest ih =>
    intro fs li up0 skp0
    simp only [updateFilesGo]
    by_cases hread : readFalsy (fs path) = true
    · rw [if_pos hread]
      exact ih fs li up0 (skp0 ++ [path])
    · rw [if_neg hread]
      by_cases htest : (testG (markupPattern pfx) ((fs path).getD []) li).1 = true
      · rw [if_neg (by rw [htest]; simp)]
        show ∃ up skp, updateFilesGo pfx true rmo rest fs
          (testG (markupPattern pfx) ((fs path).getD []) li).2 (up0 ++ [path]) skp0 =
          some (up, skp, fs)
        exact ih fs _ (up0 ++ [path]) skp0
      · have htestf : (testG (markupPattern pfx) ((fs path).getD []) li).1 = false :=
          Bool.eq_false_iff.mpr htest
        rw [if_pos (by rw [htestf]; rfl)]
        exact ih fs _ up0 (skp0 ++ [path])

theorem deleteFilesGo_dryRun_id (comment : Str) :
    ∀ (paths : List Str) (fs : Fs) (acc : List Str),
      ∃ removed, deleteFilesGo comment true paths fs acc = (removed, fs) := by
  intro paths
  induction paths with
  | nil => intro fs acc; exact ⟨acc, rfl⟩
  | cons path rest ih =>
    intro fs acc
    simp only [deleteFilesGo]
    cases hp : fs path with
    | none => exact ih fs acc
    | some contents =>
      show ∃ removed, (if sIncludes comment contents = true then
          deleteFilesGo comment true rest fs (acc ++ [path])
        else deleteFilesGo comment true rest fs acc) = (removed, fs)
      by_cases hinc : sIncludes comment contents = true
      · rw [if_pos hinc]
        exact ih fs (acc ++ [path])
      · rw [if_neg hinc]
        exact ih fs acc

/-- Claim C10.  Both `updateFiles` and `deleteFiles` default `dryRun` to
`true` when the caller omits it, and a dry run performs no filesystem write
or delete for any input: the returned filesystem is the input filesystem,
unchanged — the call only computes and returns the report. -/
theorem dryRun_default_no_effect :
    (∀ (filePaths : List Str) (pfx : Str) (rmo : Option Bool) (fs : Fs),
      ∃ up skp, updateFiles filePaths pfx none rmo fs = some (up, skp, fs)) ∧
    (∀ (filePaths : List Str) (comment : Str) (fs : Fs),
      ∃ removed, deleteFiles filePaths comment none fs = (removed, fs)) := by
  constructor
  · intro filePaths pfx rmo fs
    exact updateFilesGo_dryRun_id pfx (rmo.getD false) filePaths fs 0 [] []
  · intro filePaths comment fs
    exact deleteFilesGo_dryRun_id comment filePaths fs []

/-! ## Claim C2 -/

theorem removeEmptyDirsGo_terminates (included : List String → Bool) :
    ∀ (fuel : Nat) (t : FsTree) (acc : List (List String)),
      t.dirs.length < fuel →
      (removeEmptyDirsGo included false fuel t acc).isSome := by
  intro fuel
  induction fuel with
  | zero => intro t acc h; omega
  | succ n ih =>
    intro t acc h
    rw [removeEmptyDirsGo]
    by_cases he : (getEmptyDirPaths included t).isEmpty = true
    · rw [if_pos he]
      rfl
    · rw [if_neg he]
      show (removeEmptyDirsGo included false n
        (t.removeDirs (getEmptyDirPaths included t)) (acc ++ getEmptyDirPaths included t)).isSome
      refine ih _ _ ?_
      have hne : getEmptyDirPaths included t ≠ [] := by
        intro hc
        rw [hc] at he
        exact he rfl
      obtain ⟨d, hd⟩ := List.exists_mem_of_ne_nil _ hne
      have hdin : d ∈ t.dirs := List.mem_of_mem_filter hd
      have hlt : ((t.removeDirs (getEmptyDirPaths included t)).dirs).length < t.dirs.length := by
        unfold FsTree.removeDirs
        rw [List.length_filter_lt_length_iff_exists]
        exact ⟨d, hdin, by simp [hd]⟩
      omega

/-- Claim C2 (code bug).  The claim — and the spec — say `removeEmptyDirs`
terminates for both `dryRun = false` and `dryRun = true`.  For
`dryRun = false` it does (each iteration deletes at least one directory);
but under `dryRun = true` nothing is ever removed, so the rescan returns
the same non-empty list forever and the `while` loop never exits: on a
tree with a single empty directory the loop diverges (`none` for *every*
fuel).  The non-dry-run run on the same tree shows the intended behaviour,
including the parent directory that becomes empty only after its child is
removed. -/
theorem removeEmptyDirs_dryRun_diverges :
    (∀ (fuel : Nat) (acc : List (List String)),
      removeEmptyDirsGo (fun _ => true) true fuel
        { dirs := [["a"], ["a", "b"]], files := [] } acc = none) ∧
    removeEmptyDirs (fun _ => true) false { dirs := [["a"], ["a", "b"]], files := [] } =
      some ([["a", "b"], ["a"]], { dirs := [], files := [] }) ∧
    (∀ (included : List String → Bool) (t : FsTree),
      (removeEmptyDirs included false t).isSome = true) := by
  refine ⟨?_, by decide, ?_⟩
  · intro fuel
    induction fuel with
    | zero => intro acc; rfl
    | succ n ih =>
      intro acc
      rw [removeEmptyDirsGo]
      rw [if_neg (by decide)]
      show removeEmptyDirsGo (fun _ => true) true n
        { dirs := [["a"], ["a", "b"]], files := [] }
        (acc ++ getEmptyDirPaths (fun _ => true) { dirs := [["a"], ["a", "b"]], files := [] })
        = none
      exact ih _
  · intro included t
    exact removeEmptyDirsGo_terminates included _ t [] (by omega)

/-! ## Claim C9 -/

/-- Modelled from the spec's words (§4.5, §3 Patch Directive): the
operations a single directive should trigger — nothing when `skip` is set
or the target path is absent; otherwise the present operations in the
fixed order append, prepend, replace, then the generic patch step carrying
the remaining options. -/
def specDirectiveOps (p : Patch) : List PatchOp :=
  if p.skip || p.path.isEmpty then []
  else
    ([(truthyOpt p.append, PatchOp.appendOp p.path (p.append.getD [])),
      (truthyOpt p.prepend, PatchOp.prependOp p.path (p.prepend.getD [])),
      (truthyOpt p.replace, PatchOp.replaceOp p.path (p.replace.getD []) p.insert)].filterMap
        (fun x => if x.1 then some x.2 else none)) ++
    [PatchOp.patchOp p.path p.append p.prepend p.replace p.insert]

/-- Modelled from the spec's words: the whole run applies, for each
directive of `patches` followed by the single `patch` (in declaration
order), exactly its operations. -/
def specHandlePatches (data : FMData) : List PatchOp :=
  ((data.patches.getD []) ++ data.patch.toList).flatMap specDirectiveOps

/-- Claim C9.  `handlePatches` applies, to each non-skipped directive with
a target path, exactly the operations present in the directive, in the
fixed order append → prepend → replace → generic patch options (the
generic `patching.patch` step always runs last, carrying whatever generic
options remain); a directive with `skip: true`, or without a target path,
triggers no patching call at all. -/
theorem handlePatches_spec :
    ∀ (data : FMData) (p : Patch),
      handlePatches data = specHandlePatches data ∧
      (p.skip = true → patchDirectiveOps p = []) ∧
      (p.path = [] → patchDirectiveOps p = []) := by
  intro data p
  refine ⟨?_, ?_, ?_⟩
  · unfold handlePatches specHandlePatches
    have hfun : patchDirectiveOps = specDirectiveOps := by
      funext q
      by_cases hs : q.skip <;> by_cases hp : q.path.isEmpty <;>
        by_cases ha : truthyOpt q.append <;> by_cases hb : truthyOpt q.prepend <;>
        by_cases hc : truthyOpt q.replace <;>
        simp [patchDirectiveOps, specDirectiveOps, hs, hp, ha, hb, hc]
    rw [hfun]
    congr 1
    cases data.patch <;> rfl
  · intro hs
    unfold patchDirectiveOps
    simp [hs]
  · intro hp
    unfold patchDirectiveOps
    simp [hp]

/-- A concrete front-matter data value exercising `handlePatches`: one
full directive, one skipped directive, plus a single `patch` entry. -/
def patchDataExample : FMData where
  patches := some [{ path := S "app.ts", append := some (S "A"),
                     replace := some (S "R"), insert := some (S "I") },
                   { path := S "x.ts", append := some (S "A"), skip := true }]
  patch := some { path := S "y.ts", prepend := some (S "P") }

/-- A concrete skipped directive. -/
def patchSkipExample : Patch where
  path := S "x.ts"
  append := some (S "A")
  skip := true

/-- A concrete path-less directive. -/
def patchNoPathExample : Patch where
  path := []
  append := some (S "A")

/-- Claim C9, witness: concrete instances of all three parts. -/
theorem handlePatches_spec_witness :
    (handlePatches patchDataExample = specHandlePatches patchDataExample) ∧
    patchDirectiveOps patchSkipExample = [] ∧
    patchDirectiveOps patchNoPathExample = [] := by
  refine ⟨?_, ?_, ?_⟩
  · exact (handlePatches_spec patchDataExample patchSkipExample).1
  · exact (handlePatches_spec patchDataExample patchSkipExample).2.1 rfl
  · exact (handlePatches_spec patchDataExample patchNoPathExample).2.2 rfl

/-! ## Claim C6 -/

theorem reverse_append_slash (dir fname : Str) :
    (dir ++ '/' :: fname).reverse = fname.reverse ++ '/' :: dir.reverse := by
  rw [List.reverse_append, List.reverse_cons, List.append_assoc, List.singleton_append]

theorem dropWhile_slash_of_head {fname : Str} (rest : Str) (h1 : fname ≠ [])
    (h2 : '/' ∉ fname) :
    (fname.reverse ++ '/' :: rest).dropWhile (fun x => x = '/') =
      fname.reverse ++ '/' :: rest := by
  cases hrev : fname.reverse with
  | nil => exact absurd (by simpa using hrev) h1
  | cons c cr =>
    have hc : c ≠ '/' := by
      intro hcc
      exact h2 (by rw [← List.mem_reverse, hrev, hcc]; simp)
    rw [List.cons_append]
    rw [List.dropWhile_cons_of_neg (by simp [hc])]

theorem mem_reverse_ne_slash {fname : Str} (h2 : '/' ∉ fname) :
    ∀ x ∈ fname.reverse, (fun x => decide ¬(x = '/')) x = true := by
  intro x hx
  simp only [decide_not, Bool.not_eq_true', decide_eq_false_iff_not]
  intro hxc
  exact h2 (by rw [← List.mem_reverse]; exact hxc ▸ hx)

theorem pathBasename_append {dir fname : Str} (h1 : fname ≠ []) (h2 : '/' ∉ fname) :
    pathBasename (dir ++ '/' :: fname) = fname := by
  unfold pathBasename
  rw [reverse_append_slash, dropWhile_slash_of_head dir.reverse h1 h2]
  rw [takeWhile_append_of dir.reverse (mem_reverse_ne_slash h2) (by simp)]
  exact List.reverse_reverse fname

theorem pathDirname_append {dir fname : Str} (h1 : fname ≠ []) (h2 : '/' ∉ fname)
    (h3 : dir ≠ []) :
    pathDirname (dir ++ '/' :: fname) = dir := by
  unfold pathDirname
  rw [reverse_append_slash, dropWhile_slash_of_head dir.reverse h1 h2]
  rw [dropWhile_append_of dir.reverse (mem_reverse_ne_slash h2) (by simp)]
  show (if dir.reverse.isEmpty then S "/" else dir.reverse.reverse) = dir
  rw [if_neg (by simp [h3])]
  exact List.reverse_reverse dir

/-- Claim C6, counterexample.  gluegun's case functions are lodash's: the
`.` of the extension is a word separator, so `kebabCase("UserProfile.ts")`
is `user-profile-ts` (not `user-profile.ts`) and
`pascalCase("user-profile.ts")` is `UserProfileTs` (not `UserProfile.ts`).
So the claim's two concrete examples fail on the code. -/
theorem generate_case_counterexample :
    formatFilename CaseOption.kebab (S "UserProfile.ts") = S "user-profile-ts" ∧
    formatFilename CaseOption.kebab (S "UserProfile.ts") ≠ S "user-profile.ts" ∧
    formatFilename CaseOption.pascal (S "user-profile.ts") = S "UserProfileTs" ∧
    formatFilename CaseOption.pascal (S "user-profile.ts") ≠ S "UserProfile.ts" := by
  refine ⟨by decide, by decide, by decide, by decide⟩

/-- Claim C6, amended.  The case transform touches only the filename
segment of the computed destination: the directory part of a relative path
`dir/fname` is preserved verbatim (`path.dirname`) and the transform is
applied to `path.basename` only, with `auto`/`none` leaving it unchanged.
But the transforms fold the extension separator into the word split:
`kebab` on `UserProfile.ts` yields `user-profile-ts`, and `pascal` on
`user-profile.ts` yields `UserProfileTs`. -/
theorem generate_case_amended :
    (∀ (dir fname : Str), fname ≠ [] → '/' ∉ fname → dir ≠ [] →
      pathBasename (dir ++ '/' :: fname) = fname ∧
      pathDirname (dir ++ '/' :: fname) = dir) ∧
    formatFilename CaseOption.kebab (S "UserProfile.ts") = S "user-profile-ts" ∧
    formatFilename CaseOption.pascal (S "user-profile.ts") = S "UserProfileTs" ∧
    (∀ f : Str, formatFilename CaseOption.auto f = f ∧ formatFilename CaseOption.keep f = f) ∧
    (∀ (env : GenEnv) (opts : GeneratorOptions) (srcDir tf : Str) (data : FMData),
      targetPathOf env opts srcDir tf data =
        pathJoin [opts.dir.getD env.appDir,
          pathDirname (relPathOf opts srcDir tf data),
          formatFilename ((opts.case).getD CaseOption.auto)
            (pathBasename (relPathOf opts srcDir tf data))]) := by
  refine ⟨?_, by decide, by decide, ?_, ?_⟩
  · intro dir fname hf hs hd
    exact ⟨pathBasename_append hf hs, pathDirname_append hf hs hd⟩
  · intro f
    exact ⟨rfl, rfl⟩
  · intro env opts srcDir tf data
    rfl

/-- Claim C6, witness for the amended theorem: the path split at
`models/UserProfile.ts`. -/
theorem generate_case_amended_witness :
    pathBasename (S "models" ++ '/' :: S "UserProfile.ts") = S "UserProfile.ts" ∧
    pathDirname (S "models" ++ '/' :: S "UserProfile.ts") = S "models" :=
  generate_case_amended.1 (S "models") (S "UserProfile.ts")
    (by decide) (by decide) (by decide)

/-! ## Claim C3 -/

/-- A concrete environment for exercising the orchestrator: `YAML.parse`
fails exactly on the front-matter body `bad: [\n`; rendering echoes the
template content; patches change nothing. -/
def envC3 : GenEnv where
  yamlParse := fun s => if s = S "bad: [\n" then .error () else .ok {}
  render := fun c _ => .ok c
  applyPatches := fun _ fs => fs
  appDir := S "/app"

/-- Concrete generator options for the examples. -/
def optsC3 : GeneratorOptions where
  name := S "Episode"
  subdirectory := S "sub"
  overwrite := false

/-- Claim C3, counterexample.  `frontMatter` is called *outside* the
per-template `try` block, so a malformed front-matter YAML raises out of
`generateFromTemplate` and aborts the whole run: with a bad first template
the call returns the exception (no result at all) and the healthy second
template is never processed, although processed fine when alone. -/
theorem generate_frontmatter_abort_counterexample :
    generateFromTemplate envC3 optsC3 (S "/tpl")
        [(S "t1.ejs", S "---\nbad: [\n---\nbody1"), (S "t2.ejs", S "body2")]
        (fun _ => none) = .error () ∧
    ((generateFromTemplate envC3 optsC3 (S "/tpl") [(S "t2.ejs", S "body2")]
        (fun _ => none)).map (fun st => (st.written, st.overwritten, st.existsL))) =
      .ok ([S "/app/sub/t2"], [], []) := by
  constructor
  · rfl
  · rfl

theorem generateGo_ok (env : GenEnv) (opts : GeneratorOptions) (srcDir : Str) :
    ∀ (templates : List (Str × Str)) (st : GenState),
      (∀ t ∈ templates, ¬ isBlank t.2 = true →
        ∃ d c, frontMatter env.yamlParse t.2 = .ok (some (d, c))) →
      ∃ st', generateGo env opts srcDir templates st = .ok st' := by
  intro templates
  induction templates with
  | nil => intro st _; exact ⟨st, rfl⟩
  | cons t rest ih =>
    intro st h
    obtain ⟨tf, tc⟩ := t
    simp only [generateGo]
    by_cases hb : isBlank tc = true
    · rw [if_pos hb]
      exact ih st (fun t ht => h t (by simp [ht]))
    · rw [if_neg hb]
      obtain ⟨d, c, hfm⟩ := h (tf, tc) (by simp) hb
      rw [hfm]
      exact ih (generateStep env opts srcDir tf d c st) (fun t ht => h t (by simp [ht]))

/-- Claim C3, amended.  Errors raised while rendering (or writing) one
template are caught, logged and skipped, and processing continues: when
every non-blank template's front matter parses (to an actual mapping), the
run always returns a result — regardless of how many renders fail.  But a
front-matter error — a `YAML.parse` exception, or the `TypeError` from
destructuring `frontMatter`'s `{}` result — happens *outside* the `try`
and aborts the whole generation run (see the counterexample). -/
theorem generate_render_errors_isolated :
    ∀ (env : GenEnv) (opts : GeneratorOptions) (srcDir : Str)
      (templates : List (Str × Str)) (fs0 : Fs),
      (∀ t ∈ templates, ¬ isBlank t.2 = true →
        ∃ d c, frontMatter env.yamlParse t.2 = .ok (some (d, c))) →
      ∃ st, generateFromTemplate env opts srcDir templates fs0 = .ok st := by
  intro env opts srcDir templates fs0 h
  exact generateGo_ok env opts srcDir templates { fs := fs0 } h

/-- Claim C3, witness: a run with one failing render and one healthy
template still returns a result. -/
theorem generate_render_errors_isolated_witness :
    ∃ st, generateFromTemplate
      { yamlParse := fun _ => .ok {}
        render := fun c _ => if c = S "boom" then .error () else .ok c
        applyPatches := fun _ fs => fs
        appDir := S "/app" } optsC3 (S "/tpl")
      [(S "t1.ejs", S "boom"), (S "t2.ejs", S "body2")] (fun _ => none) = .ok st :=
  generate_render_errors_isolated
    { yamlParse := fun _ => .ok {}
      render := fun c _ => if c = S "boom" then .error () else .ok c
      applyPatches := fun _ fs => fs
      appDir := S "/app" } optsC3 (S "/tpl")
    [(S "t1.ejs", S "boom"), (S "t2.ejs", S "body2")] (fun _ => none)
    (by
      intro t ht hb
      rcases List.mem_cons.mp ht with rfl | ht
      · exact ⟨{}, S "boom", rfl⟩
      · rcases List.mem_cons.mp ht with rfl | ht
        · exact ⟨{}, S "body2", rfl⟩
        · simp at ht)

/-! ## Claim C7 -/

theorem targetsOf_cons_blank {env : GenEnv} {opts : GeneratorOptions} {srcDir tf tc : Str}
    (rest : List (Str × Str)) (hb : isBlank tc = true) :
    targetsOf env opts srcDir ((tf, tc) :: rest) = targetsOf env opts srcDir rest := by
  simp [targetsOf, List.filterMap_cons, hb]

theorem targetsOf_cons_fm {env : GenEnv} {opts : GeneratorOptions} {srcDir tf tc : Str}
    {d : FMData} {c : Str} (rest : List (Str × Str)) (hb : ¬ isBlank tc = true)
    (hfm : frontMatter env.yamlParse tc = .ok (some (d, c))) :
    targetsOf env opts srcDir ((tf, tc) :: rest) =
      targetPathOf env opts srcDir tf d :: targetsOf env opts srcDir rest := by
  simp [targetsOf, List.filterMap_cons, hb, hfm]

/-- `generateStep` when the destination already exists and overwriting is
off: record in `exists`, touch nothing else. -/
theorem generateStep_exists {env : GenEnv} {opts : GeneratorOptions} {srcDir tf : Str}
    {d : FMData} {c : Str} {st : GenState}
    (hex : (st.fs (targetPathOf env opts srcDir tf d)).isSome = true)
    (hov : opts.overwrite = false) :
    generateStep env opts srcDir tf d c st =
      { st with existsL := st.existsL ++ [targetPathOf env opts srcDir tf d] } := by
  unfold generateStep
  rw [if_pos (by rw [hex, hov]; rfl)]

/-- `generateStep` when the destination does not exist and rendering
succeeds: write, record in `written`, then apply declared patches. -/
theorem generateStep_write {env : GenEnv} {opts : GeneratorOptions} {srcDir tf : Str}
    {d : FMData} {c : Str} {st : GenState} {g : Str}
    (hex : (st.fs (targetPathOf env opts srcDir tf d)).isSome = false)
    (hr : env.render c (mkProps opts) = .ok g) :
    generateStep env opts srcDir tf d c st =
      (if d.patches.isSome || d.patch.isSome then
        { st with written := st.written ++ [targetPathOf env opts srcDir tf d],
                  fs := env.applyPatches d
                    (st.fs.write (targetPathOf env opts srcDir tf d) g) }
      else
        { st with written := st.written ++ [targetPathOf env opts srcDir tf d],
                  fs := st.fs.write (targetPathOf env opts srcDir tf d) g }) := by
  unfold generateStep
  rw [if_neg (by rw [hex]; simp), hr, hex]
  simp only [Bool.false_eq_true, if_false]

/-- Step equation of the loop for a non-blank template with parsed front
matter. -/
theorem generateGo_cons_fm {env : GenEnv} {opts : GeneratorOptions}
    {srcDir tf tc : Str} {rest : List (Str × Str)} {st : GenState}
    {d : FMData} {c : Str} (hb : ¬ isBlank tc = true)
    (hfm : frontMatter env.yamlParse tc = .ok (some (d, c))) :
    generateGo env opts srcDir ((tf, tc) :: rest) st =
      generateGo env opts srcDir rest (generateStep env opts srcDir tf d c st) := by
  simp only [generateGo]
  rw [if_neg hb, hfm]

/-- Step equation of the loop for a blank template: skipped entirely. -/
theorem generateGo_cons_blank {env : GenEnv} {opts : GeneratorOptions}
    {srcDir tf tc : Str} {rest : List (Str × Str)} {st : GenState}
    (hb : isBlank tc = true) :
    generateGo env opts srcDir ((tf, tc) :: rest) st =
      generateGo env opts srcDir rest st := by
  simp only [generateGo]
  rw [if_pos hb]

theorem nodup_middle_not_mem {xs ys : List Str} {a : Str}
    (h : (xs ++ a :: ys).Nodup) : a ∉ xs := by
  have := List.nodup_middle.mp h
  intro hm
  exact (List.nodup_cons.mp this).1 (by simp [hm])

theorem generateGo_fresh (env : GenEnv) (opts : GeneratorOptions) (srcDir : Str)
    (fs0 : Fs)
    (hrender : ∀ c p, ∃ s, env.render c p = Except.ok s)
    (hpatch : ∀ d fs p, ((env.applyPatches d fs) p).isSome = (fs p).isSome) :
    ∀ (templates : List (Str × Str)) (st : GenState),
      (∀ t ∈ templates, ¬ isBlank t.2 = true →
        ∃ d c, frontMatter env.yamlParse t.2 = .ok (some (d, c))) →
      (st.written ++ targetsOf env opts srcDir templates).Nodup →
      (∀ p, (st.fs p).isSome = true ↔ ((fs0 p).isSome = true ∨ p ∈ st.written)) →
      (∀ tp ∈ targetsOf env opts srcDir templates, fs0 tp = none) →
      ∃ st', generateGo env opts srcDir templates st = .ok st' ∧
        st'.written = st.written ++ targetsOf env opts srcDir templates ∧
        st'.overwritten = st.overwritten ∧
        st'.existsL = st.existsL ∧
        (∀ p, (st'.fs p).isSome = true ↔ ((fs0 p).isSome = true ∨ p ∈ st'.written)) := by
  intro templates
  induction templates with
  | nil =>
    intro st _ _ hdom _
    exact ⟨st, rfl, by simp [targetsOf], rfl, rfl, hdom⟩
  | cons t rest ih =>
    intro st hfm hnd hdom hem
    obtain ⟨tf, tc⟩ := t
    by_cases hb : isBlank tc = true
    · rw [generateGo_cons_blank hb]
      rw [targetsOf_cons_blank rest hb] at hnd hem ⊢
      exact ih st (fun t ht => hfm t (by simp [ht])) hnd hdom hem
    · obtain ⟨d, c, hfmt⟩ := hfm (tf, tc) (by simp) hb
      rw [generateGo_cons_fm hb hfmt]
      rw [targetsOf_cons_fm rest hb hfmt] at hnd hem ⊢
      have htp_new : targetPathOf env opts srcDir tf d ∉ st.written :=
        nodup_middle_not_mem hnd
      have htp0 : fs0 (targetPathOf env opts srcDir tf d) = none :=
        hem _ (by simp)
      have hex : (st.fs (targetPathOf env opts srcDir tf d)).isSome = false := by
        cases hb2 : (st.fs (targetPathOf env opts srcDir tf d)).isSome with
        | false => rfl
        | true =>
          rcases (hdom _).mp hb2 with hcase | hcase
          · rw [htp0] at hcase; simp at hcase
          · exact absurd hcase htp_new
      obtain ⟨g, hg⟩ := hrender c (mkProps opts)
      rw [generateStep_write hex hg]
      -- the state after this template, in both patch cases
      by_cases hpat : (d.patches.isSome || d.patch.isSome) = true
      · rw [if_pos hpat]
        have hdom2 : ∀ p,
            ((env.applyPatches d
              (st.fs.write (targetPathOf env opts srcDir tf d) g)) p).isSome = true ↔
            ((fs0 p).isSome = true ∨ p ∈ st.written ++ [targetPathOf env opts srcDir tf d]) := by
          intro p
          rw [hpatch]
          unfold Fs.write
          by_cases hpq : p = targetPathOf env opts srcDir tf d
          · rw [if_pos hpq]
            simp [hpq]
          · rw [if_neg hpq]
            rw [hdom p]
            simp [hpq]
        obtain ⟨st', h1, h2, h3, h4, h5⟩ := ih
          { written := st.written ++ [targetPathOf env opts srcDir tf d],
            overwritten := st.overwritten, existsL := st.existsL,
            fs := env.applyPatches d
              (st.fs.write (targetPathOf env opts srcDir tf d) g) }
          (fun t ht => hfm t (by simp [ht]))
          (by simpa [List.append_assoc] using hnd) hdom2
          (fun tp htp => hem tp (by simp [htp]))
        exact ⟨st', h1, by rw [h2]; simp, h3, h4, h5⟩
      · rw [if_neg hpat]
        have hdom2 : ∀ p,
            ((st.fs.write (targetPathOf env opts srcDir tf d) g) p).isSome = true ↔
            ((fs0 p).isSome = true ∨ p ∈ st.written ++ [targetPathOf env opts srcDir tf d]) := by
          intro p
          unfold Fs.write
          by_cases hpq : p = targetPathOf env opts srcDir tf d
          · rw [if_pos hpq]
            simp [hpq]
          · rw [if_neg hpq]
            rw [hdom p]
            simp [hpq]
        obtain ⟨st', h1, h2, h3, h4, h5⟩ := ih
          { written := st.written ++ [targetPathOf env opts srcDir tf d],
            overwritten := st.overwritten, existsL := st.existsL,
            fs := st.fs.write (targetPathOf env opts srcDir tf d) g }
          (fun t ht => hfm t (by simp [ht]))
          (by simpa [List.append_assoc] using hnd) hdom2
          (fun tp htp => hem tp (by simp [htp]))
        exact ⟨st', h1, by rw [h2]; simp, h3, h4, h5⟩

theorem generateGo_allExist (env : GenEnv) (opts : GeneratorOptions) (srcDir : Str)
    (hov : opts.overwrite = false) :
    ∀ (templates : List (Str × Str)) (st : GenState),
      (∀ t ∈ templates, ¬ isBlank t.2 = true →
        ∃ d c, frontMatter env.yamlParse t.2 = .ok (some (d, c))) →
      (∀ tp ∈ targetsOf env opts srcDir templates, (st.fs tp).isSome = true) →
      generateGo env opts srcDir templates st = .ok
        { written := st.written, overwritten := st.overwritten,
          existsL := st.existsL ++ targetsOf env opts srcDir templates, fs := st.fs } := by
  intro templates
  induction templates with
  | nil =>
    intro st _ _
    simp [generateGo, targetsOf]
  | cons t rest ih =>
    intro st hfm hdom
    obtain ⟨tf, tc⟩ := t
    by_cases hb : isBlank tc = true
    · rw [generateGo_cons_blank hb]
      rw [targetsOf_cons_blank rest hb] at hdom ⊢
      exact ih st (fun t ht => hfm t (by simp [ht])) hdom
    · obtain ⟨d, c, hfmt⟩ := hfm (tf, tc) (by simp) hb
      rw [generateGo_cons_fm hb hfmt]
      rw [targetsOf_cons_fm rest hb hfmt] at hdom ⊢
      rw [generateStep_exists (hdom _ (by simp)) hov]
      have hrec := ih
        { written := st.written, overwritten := st.overwritten,
          existsL := st.existsL ++ [targetPathOf env opts srcDir tf d],
          fs := st.fs }
        (fun t ht => hfm t (by simp [ht])) (fun tp htp => hdom tp (by simp [htp]))
      rw [hrec]
      simp

/-- Claim C7, amended.  Under the provisos that every non-blank template's
front matter parses, every render succeeds, patch application never
creates or deletes files, the computed destination paths are pairwise
distinct, none of them exists initially, and `overwrite = false`: the
first run records every destination in `written` (with `overwritten` and
`exists` empty), and a second identical run on the resulting filesystem
records exactly the same destinations in `exists` (with `written` and
`overwritten` empty).  Without the distinctness proviso the claim fails on
the code (see the counterexample): two templates mapping to one
destination put it in `written` and in `exists` within the *first* run. -/
theorem generate_idempotent_amended :
    ∀ (env : GenEnv) (opts : GeneratorOptions) (srcDir : Str)
      (templates : List (Str × Str)) (fs0 : Fs),
      (∀ t ∈ templates, ¬ isBlank t.2 = true →
        ∃ d c, frontMatter env.yamlParse t.2 = .ok (some (d, c))) →
      (∀ c p, ∃ s, env.render c p = Except.ok s) →
      (∀ d fs p, ((env.applyPatches d fs) p).isSome = (fs p).isSome) →
      (targetsOf env opts srcDir templates).Nodup →
      (∀ tp ∈ targetsOf env opts srcDir templates, fs0 tp = none) →
      opts.overwrite = false →
      ∃ st1 st2,
        generateFromTemplate env opts srcDir templates fs0 = .ok st1 ∧
        st1.written = targetsOf env opts srcDir templates ∧
        st1.overwritten = [] ∧ st1.existsL = [] ∧
        generateFromTemplate env opts srcDir templates st1.fs = .ok st2 ∧
        st2.written = [] ∧ st2.overwritten = [] ∧
        st2.existsL = targetsOf env opts srcDir templates := by
  intro env opts srcDir templates fs0 hfm hrender hpatch hnd hem hov
  obtain ⟨st1, h1, h2, h3, h4, h5⟩ :=
    generateGo_fresh env opts srcDir fs0 hrender hpatch templates { fs := fs0 }
      hfm (by simpa using hnd) (by intro p; simp) hem
  have hdom2 : ∀ tp ∈ targetsOf env opts srcDir templates,
      (({ fs := st1.fs } : GenState).fs tp).isSome = true := by
    intro tp htp
    show (st1.fs tp).isSome = true
    rw [h5 tp]
    right
    rw [h2]
    simpa using htp
  have h6 := generateGo_allExist env opts srcDir hov templates { fs := st1.fs } hfm hdom2
  exact ⟨st1, _, h1, by simpa using h2, by simpa using h3, by simpa using h4,
    h6, rfl, rfl, by simp⟩

/-- An environment whose front matter declares the same destination path
for every template: `YAML.parse` yields `path: same.ts`; rendering echoes
the content; patches change nothing. -/
def envC7 : GenEnv where
  yamlParse := fun _ => .ok { path := some (S "same.ts") }
  render := fun c _ => .ok c
  applyPatches := fun _ fs => fs
  appDir := S "/app"

/-- Claim C7, counterexample.  Starting from a state where *no* destination
file exists, a single run of `generateFromTemplate` with two templates
whose front matter declares the same destination path ends with that path
in `written` AND in `exists`: the claim's "all destination paths in
`written` (and none in `exists` or `overwritten`) on the first run" fails
without a distinctness proviso on the computed destinations. -/
theorem generate_idempotent_counterexample :
    ((generateFromTemplate envC7 optsC3 (S "/tpl")
        [(S "t1.ejs", S "---\nx\n---\nbody1"), (S "t2.ejs", S "---\nx\n---\nbody2")]
        (fun _ => none)).map
      (fun st => (st.written, st.overwritten, st.existsL))) =
      .ok ([S "/app/same.ts"], [], [S "/app/same.ts"]) := by
  rfl

/-- An environment with no front-matter overrides, echo rendering and
inert patches, for the idempotence witness. -/
def envC7W : GenEnv where
  yamlParse := fun _ => .ok {}
  render := fun c _ => .ok c
  applyPatches := fun _ fs => fs
  appDir := S "/app"

theorem generate_idempotent_amended_witness :
    ∃ st1 st2,
      generateFromTemplate envC7W optsC3 (S "/tpl")
          [(S "t1.ejs", S "body1"), (S "t2.ejs", S "body2")] (fun _ => none) = .ok st1 ∧
      st1.written = targetsOf envC7W optsC3 (S "/tpl")
          [(S "t1.ejs", S "body1"), (S "t2.ejs", S "body2")] ∧
      st1.overwritten = [] ∧ st1.existsL = [] ∧
      generateFromTemplate envC7W optsC3 (S "/tpl")
          [(S "t1.ejs", S "body1"), (S "t2.ejs", S "body2")] st1.fs = .ok st2 ∧
      st2.written = [] ∧ st2.overwritten = [] ∧
      st2.existsL = targetsOf envC7W optsC3 (S "/tpl")
          [(S "t1.ejs", S "body1"), (S "t2.ejs", S "body2")] :=
  generate_idempotent_amended envC7W optsC3 (S "/tpl")
    [(S "t1.ejs", S "body1"), (S "t2.ejs", S "body2")] (fun _ => none)
    (by
      intro t ht hb
      simp only [List.mem_cons, List.not_mem_nil, or_false] at ht
      rcases ht with h | h <;> subst h
      · exact ⟨{}, S "body1", rfl⟩
      · exact ⟨{}, S "body2", rfl⟩)
    (fun c p => ⟨c, rfl⟩)
    (fun d fs p => rfl)
    (by decide)
    (fun tp _ => rfl)
    rfl

end NoteIgnite
